import Mathlib

/-!
EDLIN (edlin.c): the text buffer and its line-addressed operations.

A shallow embedding of `src/edlin.c` and the properties proved of it.

* The globals `buffer`, `position` and `BUFSIZE` are the three fields of `State`.
* `buffer` is the memory seen through the pointer: a total function from an `int` offset to a
  byte.  The offsets in `[0, BUFSIZE)` are the allocation.  The cells from `BUFSIZE` on hold
  whatever `realloc` hands out next (C leaves them indeterminate), so a theorem that holds for
  every buffer function holds for every such content; `realloc` itself only changes `BUFSIZE`.
  The embedding does not check that an access lies inside the allocation.
* C `int` variables are `Int`; wrap-around is not modelled and no proof relies on it.
* A loop that C can run for ever (`while (1)`) takes a `fuel` bound and returns `none` when the
  fuel is used up; `none` is also the result where C has no defined behaviour.  A loop with a
  counter bound counts that bound down.
* `stdin` is the list of the strings that the successive calls `fgets(line, LINESIZE, stdin)`
  store into `line`: the bytes read, without the NUL that `fgets` puts behind them.  `stdout`
  is a list of bytes.
* A failing `malloc`/`realloc` (the `exit(1)` paths) is not modelled.
* The local arrays `line[LINESIZE+1]` and `subline` are zeroed in their first `LINESIZE` bytes
  only; what stands behind those bytes when `printf("%s")` or `strstr` runs on into it is the
  parameter `over`.
* For the range command `stdin` is the list of its bytes, and `commandLine` is what
  `fgets(line, LINESIZE, stdin)` takes from it.  The library functions `isdigit`, `isblank`,
  `isspace` and `atoi` follow the C standard in the C locale; `search` takes the substring that
  `sscanf` has read.
* `lineprintReads` and `searchReads` list the offsets at which the two readers read the buffer.
-/

namespace Edlin

/-- Initial size of the text buffer, `#define CBUFSIZE 8192`. -/
def CBUFSIZE : Int := 8192

/-- Size to grow the buffer by when it gets low, `#define BUFGROW 2048`. -/
def BUFGROW : Int := 2048

/-- Size of an input line, `#define LINESIZE 132`. -/
def LINESIZE : Nat := 132

/-- The globals `buffer`, `position`, `BUFSIZE`. -/
structure State where
  buffer : Int → Nat
  position : Int
  BUFSIZE : Int

/-- The assignment `*(buffer+i) = v`. -/
def poke (b : Int → Nat) (i : Int) (v : Nat) : Int → Nat :=
  fun j => if j = i then v else b j

/-- The bytes `[0, position)` of the buffer, the document. -/
def content (s : State) : List Nat :=
  (List.range s.position.toNat).map (fun (i : Nat) => s.buffer (i : Int))

/-- The inner loop `n = 0; while (n < LINESIZE) { ch = *(buffer+ptr+n); if (ch == '\0') break;
line[n++] = ch; if (ch != '\n') continue; ...; break; }` of `lineprint`, `delete` and `insert`
(lines 113-121, 144-152, 194-202).  The first argument counts `LINESIZE - n`.  The result is the
final `n` and whether the loop was left through the newline branch. -/
def scanLine (buffer : Int → Nat) (ptr : Int) : Nat → Int → Int × Bool
  | 0, n => (n, false)
  | k + 1, n =>
    if buffer (ptr + n) = 0 then (n, false)
    else if buffer (ptr + n) ≠ 10 then scanLine buffer ptr k (n + 1)
    else (n + 1, true)

/-- The outer `while (1)` loop of `delete` (lines 141-156) and, character for character the
same, of `insert` (lines 191-206): resolves `startpos` and `endpos`. -/
def scanRange (buffer : Int → Nat) (position first last : Int) :
    Nat → Int → Int → Int → Int → Option (Int × Int)
  | 0, _, _, _, _ => none
  | fuel + 1, linecnt, ptr, startpos, endpos =>
    let r := scanLine buffer ptr LINESIZE 0
    let startpos1 := if r.2 = true ∧ linecnt = first then ptr else startpos
    let endpos1 := if r.2 = true ∧ linecnt = last then ptr + r.1 else endpos
    if ptr + r.1 ≥ position - 1 then some (startpos1, endpos1)
    else scanRange buffer position first last fuel (linecnt + 1) (ptr + r.1) startpos1 endpos1

/-- A loop `for (; n <= e; n++) *(buffer+n) = '\0';` with `k` iterations to go. -/
def zeroFrom : Nat → (Int → Nat) → Int → (Int → Nat)
  | 0, b, _ => b
  | k + 1, b, n => zeroFrom k (poke b n 0) (n + 1)

/-- The loop of `delete`, lines 163-168:
`while (1) { *(buffer+startpos+n) = *(buffer+endpos+n+1); n++; if ((n+endpos) == position) break; }`. -/
def shiftDown (startpos endpos position : Int) : Nat → (Int → Nat) → Int → Option (Int → Nat)
  | 0, _, _ => none
  | fuel + 1, b, n =>
    let b1 := poke b (startpos + n) (b (endpos + n + 1))
    if (n + 1) + endpos = position then some b1
    else shiftDown startpos endpos position fuel b1 (n + 1)

/-- The function `void delete(int first, int last)`, lines 134-179: the normalisation
`if (first > last) last = first`, the scan with `startpos = endpos = 0`, `linecnt = 1`, `ptr = 0`,
then `endpos--` (line 157), the loop `for (int n=startpos; n<=endpos; n++) *(buffer+n)='\0'`
(line 160), the copy loop (lines 163-168), `shift = endpos-startpos`, the loop
`for (n=position-shift; n<=position; n++) *(buffer+n) = '\0'` (lines 172-173) and
`position = position-shift-1` (line 176). -/
def delete (fuel : Nat) (s : State) (first last : Int) : Option State :=
  let last := if first > last then first else last
  match scanRange s.buffer s.position first last fuel 1 0 0 0 with
  | none => none
  | some (startpos, endpos0) =>
    let endpos := endpos0 - 1
    let b1 := zeroFrom (endpos - startpos + 1).toNat s.buffer startpos
    match shiftDown startpos endpos s.position fuel b1 0 with
    | none => none
    | some b2 =>
      let shift := endpos - startpos
      let b3 := zeroFrom (s.position - (s.position - shift) + 1).toNat b2 (s.position - shift)
      some { buffer := b3, position := s.position - shift - 1, BUFSIZE := s.BUFSIZE }

/-- The decimal digits printed by `printf("%03d", n)` for `n ≥ 0` (the line counters start at 1
and only grow): at least three digits, padded with `'0'`. -/
def fmt03 (n : Int) : List Nat :=
  List.replicate (3 - (Nat.toDigits 10 n.toNat).length) 48 ++
    (Nat.toDigits 10 n.toNat).map Char.toNat

/-- The outer `while (1)` loop of `lineprint`, lines 110-130.  The accumulator is what has been
written to `stdout` and the line numbers named in the warnings written to `stderr`.  `line` holds
the `n` bytes copied from `buffer+ptr`; `printf("%03d] %s", linecnt, line)` prints them up to the
NUL that `memset` left behind them.  When `n == LINESIZE` there is no such NUL inside the
initialised part of `line`, and `printf` reads on from `line[LINESIZE]`, which was never written:
`over` stands for the bytes it finds there before the first NUL. -/
def lineprintLoop (buffer : Int → Nat) (position first last : Int) (over : List Nat) :
    Nat → Int → Int → List Nat × List Int → Option (List Nat × List Int)
  | 0, _, _, _ => none
  | fuel + 1, linecnt, ptr, out =>
    let r := scanLine buffer ptr LINESIZE 0
    let copied := (List.range r.1.toNat).map (fun (j : Nat) => buffer (ptr + (j : Int)))
    let line := if r.1 ≥ LINESIZE then copied ++ over else copied
    let shown := r.2 = true ∧ (linecnt = first ∨ (linecnt ≥ first ∧ linecnt ≤ last))
    let out1 := if shown then out.1 ++ (fmt03 linecnt ++ [93, 32] ++ line) else out.1
    let err1 := if r.1 ≥ LINESIZE then out.2 ++ [linecnt] else out.2
    if ptr + r.1 < position - 1 then
      lineprintLoop buffer position first last over fuel (linecnt + 1) (ptr + r.1) (out1, err1)
    else some (out1, err1)

/-- The function `void lineprint(int first, int last)`, lines 103-132: the bytes written to
`stdout` and the line numbers warned about on `stderr`. -/
def lineprint (fuel : Nat) (s : State) (first last : Int) (over : List Nat) :
    Option (List Nat × List Int) :=
  let last := if first > last then first else last
  lineprintLoop s.buffer s.position first last over fuel 1 0 ([], [])

/-- The copy loop of `append`, lines 492-498, over the string in `line` (the end of the list is
the terminating NUL): `while (1) { if (line[cnt] == '\0') break; if (cnt == LINESIZE) break;
*(buffer+position) = line[cnt]; position++; cnt++; }`. -/
def storeLine : List Nat → Nat → (Int → Nat) → Int → (Int → Nat) × Int
  | [], _, b, position => (b, position)
  | c :: cs, cnt, b, position =>
    if c = 0 then (b, position)
    else if cnt = LINESIZE then (b, position)
    else storeLine cs (cnt + 1) (poke b position c) (position + 1)

/-- One round of the entry loop of `append` for a line that does not stop it, lines 491-512:
the copy loop, then the growth test `if (position > BUFSIZE-LINESIZE)`. -/
def appendLine (s : State) (line : List Nat) : State :=
  let r := storeLine line 0 s.buffer s.position
  { buffer := r.1
    position := r.2
    BUFSIZE := if r.2 > s.BUFSIZE - LINESIZE then s.BUFSIZE + BUFGROW else s.BUFSIZE }

/-- The function `void append(void)`, lines 473-515, on the lines that `fgets` delivers.  The
loop is left by a line with `line[0] == '.'`; when the input ends before such a line C prompts
for ever: `none`. -/
def append : State → List (List Nat) → Option State
  | _, [] => none
  | s, line :: rest =>
    if line.head? = some 46 then some s else append (appendLine s line) rest

/-- The loop of `insert`, lines 233-238:
`while (1) { *(buffer+ptr-n) = *(buffer+position-n); if (position-n-1 == startpos-1) break; n++; }`. -/
def shiftUp (ptr position startpos : Int) : Nat → (Int → Nat) → Int → Option (Int → Nat)
  | 0, _, _ => none
  | fuel + 1, b, n =>
    let b1 := poke b (ptr - n) (b (position - n))
    if position - n - 1 = startpos - 1 then some b1
    else shiftUp ptr position startpos fuel b1 (n + 1)

/-- The loop of `insert`, lines 241-246, over the characters of the string in `line`:
`while (1) { *(buffer+startpos+n) = line[n]; if (n == strlen(line)-1) break; n++; }`. -/
def putLine : List Nat → (Int → Nat) → Int → Int → (Int → Nat)
  | [], b, _, _ => b
  | c :: cs, b, startpos, n => putLine cs (poke b (startpos + n) c) startpos (n + 1)

/-- The `insloop:` part of `insert`, lines 208-254, one round per input line.  `strlen(line)` is
the length of the part of the line before its first NUL.  With `strlen(line) == 0` the exit test
`n == strlen(line)-1` of the write loop compares with `SIZE_MAX` and the loop runs off the
buffer: `none`.  The input ending before a line with `line[0] == '.'` is `none` as in `append`. -/
def insloop (fuel : Nat) : List (List Nat) → State → Int → Option State
  | [], _, _ => none
  | line :: rest, s, startpos =>
    if line.head? = some 46 then some s
    else if (line.takeWhile (fun c => c ≠ 0)).length = 0 then none
    else
      let ls : Int := (line.takeWhile (fun c => c ≠ 0)).length
      let ptr := s.position + ls
      match shiftUp ptr s.position startpos fuel s.buffer 0 with
      | none => none
      | some b1 =>
        insloop fuel rest
          { buffer := putLine (line.takeWhile (fun c => c ≠ 0)) b1 startpos 0
            position := s.position + ls
            BUFSIZE := if ptr > s.BUFSIZE - LINESIZE then s.BUFSIZE + BUFGROW else s.BUFSIZE }
          (startpos + (ls - 1) + 1)

/-- The function `void insert(int first, int last)`, lines 183-255: the normalisation of `last`,
the scan (the same loop as in `delete`; `endpos` is not used afterwards), then the entry loop at
`insloop:`. -/
def insert (fuel : Nat) (s : State) (first last : Int) (input : List (List Nat)) : Option State :=
  let last := if first > last then first else last
  match scanRange s.buffer s.position first last fuel 1 0 0 0 with
  | none => none
  | some (startpos, _) => insloop fuel input s startpos

/-- One round of the read loop of `loadfile` for a byte that was read, lines 279-294. -/
def loadByte (s : State) (ch : Nat) : State :=
  { buffer := poke s.buffer s.position ch
    position := s.position + 1
    BUFSIZE := if s.position + 1 > s.BUFSIZE - LINESIZE then s.BUFSIZE + BUFGROW else s.BUFSIZE }

/-- The function `void loadfile(char *filename)`, lines 259-300, on the bytes of a file that
could be opened. -/
def loadfile (s : State) (file : List Nat) : State :=
  file.foldl loadByte s

/-- The command `n` of `main`, lines 336-341: `memset(buffer,0,BUFSIZE); position = 0;`. -/
def clear (s : State) : State :=
  { buffer := fun i => if 0 ≤ i ∧ i < s.BUFSIZE then 0 else s.buffer i
    position := 0
    BUFSIZE := s.BUFSIZE }

/-- The state `main` starts the command loop in when no file is named, lines 306-313:
`BUFSIZE = CBUFSIZE`, the allocation zeroed by `memset`, `position` zero.  `junk` is the memory
outside the allocation. -/
def init (junk : Int → Nat) : State :=
  { buffer := fun i => if 0 ≤ i ∧ i < CBUFSIZE then 0 else junk i
    position := 0
    BUFSIZE := CBUFSIZE }

/-- One step of the editor that can move `position` up or reset it: `append` stores one line,
`insert` inserts one line (the entry loop is then left with `".\n"`), `loadfile` stores one byte
of the file, the command `n` clears the buffer.  The lines are at most `LINESIZE - 1` bytes
long, as `fgets(line, LINESIZE, stdin)` delivers them. -/
inductive Step : State → State → Prop
  | appendLine (s : State) (l : List Nat) :
      l.length ≤ LINESIZE - 1 → l.head? ≠ some 46 → Step s (appendLine s l)
  | insertLine (fuel : Nat) (s : State) (first last : Int) (l : List Nat) (s' : State) :
      l.length ≤ LINESIZE - 1 → insert fuel s first last [l, [46, 10]] = some s' → Step s s'
  | loadByte (s : State) (ch : Nat) : Step s (loadByte s ch)
  | clear (s : State) : Step s (clear s)

/-- The states reached from the initial state by any sequence of steps. -/
inductive Reachable (junk : Int → Nat) : State → Prop
  | init : Reachable junk (init junk)
  | step (s s' : State) : Reachable junk s → Step s s' → Reachable junk s'

/-- A state whose document is `bytes`, every other cell zero, capacity `CBUFSIZE`. -/
def mkState (bytes : List Nat) : State :=
  { buffer := fun i => if i < 0 then 0 else bytes.getD i.toNat 0
    position := bytes.length
    BUFSIZE := CBUFSIZE }

/-- A newline-terminated line of at most `LINESIZE - 1` bytes, the most `fgets(line, LINESIZE,
stdin)` stores: its last byte is `'\n'` and no other byte is. -/
def Line (l : List Nat) : Prop :=
  l.length ≤ LINESIZE - 1 ∧ l.getLast? = some 10 ∧ 10 ∉ l.dropLast

instance (l : List Nat) : Decidable (Line l) := by
  unfold Line; infer_instance

/-- No NUL byte. -/
def NulFree (l : List Nat) : Prop := 0 ∉ l

instance (l : List Nat) : Decidable (NulFree l) := by
  unfold NulFree; infer_instance

/-- The bytes `bytes` stand in the buffer from offset `p` on. -/
def At (b : Int → Nat) : Int → List Nat → Prop
  | _, [] => True
  | p, c :: cs => b p = c ∧ At b (p + 1) cs

/-- The value the scan of `delete`/`insert` leaves in `startpos` (`atEnd = false`) or `endpos`
(`atEnd = true`) after running over the lines `ls`, the first of which has number `linecnt` and
starts at `ptr`, read off the list of lines. -/
def resolve (target : Int) (atEnd : Bool) : List (List Nat) → Int → Int → Int → Int
  | [], _, _, r => r
  | l :: ls, linecnt, ptr, r =>
    resolve target atEnd ls (linecnt + 1) (ptr + l.length)
      (if linecnt = target then (if atEnd then ptr + l.length else ptr) else r)

/-- The lines that the scan of `delete`/`insert` visits: all of them, except the blank last line
of a document of two or more lines, before which the exit test `ptr >= position-1` already
holds. -/
def visited : List (List Nat) → List (List Nat)
  | [] => []
  | l :: rest => if rest = [[10]] then [l] else l :: visited rest

/-- The inner loop of `search`, lines 80-84: `for (n=0; n<LINESIZE; n++) { ch = *(buffer+pos+n);
subline[n] = ch; if (ch == '\n') break; }`.  The first argument counts `LINESIZE - n`.  The result
is the final `n` and whether the loop was left by `break`. -/
def searchLine (buffer : Int → Nat) (pos : Int) : Nat → Int → Int × Bool
  | 0, n => (n, false)
  | k + 1, n =>
    if buffer (pos + n) = 10 then (n, true) else searchLine buffer pos k (n + 1)

/-- The outer `while (1)` loop of `search`, lines 78-99.  `subline` holds the bytes copied from
`buffer+pos`, the newline included when there is one, in front of the zeroes of `memset`; as a
string it ends at its first NUL.  When all `LINESIZE` initialised bytes are copies and none is
NUL, `strstr` and `printf` read on from `subline[LINESIZE]`, which was never written: `over`
stands for the bytes they find there before the first NUL.  `strstr(subline, substring) != NULL`
says that the string `substring` occurs in the string `subline`.  The accumulator is as in
`lineprintLoop`; the closing `printf("\n")` is the last byte written. -/
def searchLoop (buffer : Int → Nat) (position : Int) (substring over : List Nat) :
    Nat → Int → Int → List Nat × List Int → Option (List Nat × List Int)
  | 0, _, _, _ => none
  | fuel + 1, linenum, pos, out =>
    let r := searchLine buffer pos LINESIZE 0
    let cnt := if r.2 = true then r.1 + 1 else r.1
    let copied := (List.range cnt.toNat).map (fun (j : Nat) => buffer (pos + (j : Int)))
    let str := copied.takeWhile (fun c => c ≠ 0)
    let subline := if str.length ≥ LINESIZE then str ++ over else str
    let err1 := if r.2 = true then out.2 else out.2 ++ [linenum]
    let out1 := if List.IsInfix (substring.takeWhile (fun c => c ≠ 0)) subline
      then out.1 ++ (fmt03 linenum ++ [93, 32] ++ subline) else out.1
    if pos + (r.1 + 1) < position - 1 then
      searchLoop buffer position substring over fuel (linenum + 1) (pos + (r.1 + 1)) (out1, err1)
    else some (out1 ++ [10], err1)

/-- The function `void search(char *substring)`, lines 69-100 (`malloc` succeeding): the bytes
written to `stdout` and the line numbers warned about on `stderr`. -/
def search (fuel : Nat) (s : State) (substring over : List Nat) :
    Option (List Nat × List Int) :=
  searchLoop s.buffer s.position substring over fuel 1 0 ([], [])

/-- The offsets at which the inner loop of `lineprint` (and of `delete`, `insert`) reads the
buffer, in the order of the reads. -/
def scanLineReads (buffer : Int → Nat) (ptr : Int) : Nat → Int → List Int
  | 0, _ => []
  | k + 1, n =>
    (ptr + n) ::
      (if buffer (ptr + n) = 0 then []
       else if buffer (ptr + n) ≠ 10 then scanLineReads buffer ptr k (n + 1)
       else [])

/-- The offsets at which `lineprint` reads the buffer in its first `fuel` rounds (they do not
depend on `first` and `last`). -/
def lineprintReads (buffer : Int → Nat) (position : Int) : Nat → Int → List Int
  | 0, _ => []
  | fuel + 1, ptr =>
    scanLineReads buffer ptr LINESIZE 0 ++
      (if ptr + (scanLine buffer ptr LINESIZE 0).1 < position - 1 then
        lineprintReads buffer position fuel (ptr + (scanLine buffer ptr LINESIZE 0).1)
       else [])

/-- The offsets at which the inner loop of `search` reads the buffer. -/
def searchLineReads (buffer : Int → Nat) (pos : Int) : Nat → Int → List Int
  | 0, _ => []
  | k + 1, n =>
    (pos + n) ::
      (if buffer (pos + n) = 10 then [] else searchLineReads buffer pos k (n + 1))

/-- The offsets at which `search` reads the buffer in its first `fuel` rounds (they do not
depend on the substring). -/
def searchReads (buffer : Int → Nat) (position : Int) : Nat → Int → List Int
  | 0, _ => []
  | fuel + 1, pos =>
    searchLineReads buffer pos LINESIZE 0 ++
      (if pos + ((searchLine buffer pos LINESIZE 0).1 + 1) < position - 1 then
        searchReads buffer position fuel (pos + ((searchLine buffer pos LINESIZE 0).1 + 1))
       else [])

/-- The bytes the command `w` of `main` writes to the file, lines 363-364:
`for (int n=0; n<position; n++) fprintf(fd,"%c",*(buffer+n));`. -/
def save (s : State) : List Nat :=
  (List.range s.position.toNat).map (fun (n : Nat) => s.buffer (n : Int))

/-- The lines of a document with their numbers, counted from `k`. -/
def numbered : List (List Nat) → Int → List (Int × List Nat)
  | [], _ => []
  | l :: ls, k => (k, l) :: numbered ls (k + 1)

/-- The bytes of a sequence of entries as `printf("%03d] %s", number, text)` writes them. -/
def render (es : List (Int × List Nat)) : List Nat :=
  (es.map (fun e => fmt03 e.1 ++ [93, 32] ++ e.2)).flatten

/-- The library function `fgets(line, size, stdin)` after the C standard, on the bytes waiting
in `stdin`, with `k = size - 1` bytes still allowed: it stores bytes up to and including the
first newline, at most `k` of them.  The result is the string stored and what is left in
`stdin`. -/
def fgetsAux : Nat → List Nat → List Nat × List Nat
  | 0, rest => ([], rest)
  | _ + 1, [] => ([], [])
  | k + 1, c :: cs =>
    if c = 10 then ([c], cs) else (c :: (fgetsAux k cs).1, (fgetsAux k cs).2)

/-- The command line of one round of the command loop of `main`, line 329:
`fgets(line,LINESIZE,stdin)`. -/
def commandLine (stdin : List Nat) : List Nat :=
  (fgetsAux (LINESIZE - 1) stdin).1

/-- The library predicate `isdigit` of `<ctype.h>` in the C locale. -/
def isdigit (c : Nat) : Bool := decide (48 ≤ c ∧ c ≤ 57)

/-- The library predicate `isblank` of `<ctype.h>` in the C locale: space and tab. -/
def isblank (c : Nat) : Bool := decide (c = 32 ∨ c = 9)

/-- The library predicate `isspace` of `<ctype.h>` in the C locale. -/
def isspace (c : Nat) : Bool := decide (c = 32 ∨ (9 ≤ c ∧ c ≤ 13))

/-- The digits that `atoi` converts, with the value so far; the conversion stops at the first
byte that is not a digit (the end of the list is the NUL of the string). -/
def atoiDigits : List Nat → Int → Int
  | [], acc => acc
  | c :: cs, acc => if isdigit c = true then atoiDigits cs (acc * 10 + ((c : Int) - 48)) else acc

/-- The library function `atoi` after the C standard, on a string: white space is skipped, a
sign is taken, the digits are converted.  A value outside `int` is not modelled. -/
def atoi (str : List Nat) : Int :=
  match str.dropWhile isspace with
  | 45 :: r => - atoiDigits r 0
  | 43 :: r => atoiDigits r 0
  | r => atoiDigits r 0

/-- The two loops of `main` that copy a number, lines 423-429 and 435-440:
`while (1) { digit[digitcnt++] = line[linecnt++]; if (linecnt > LINESIZE) break;
if (isdigit(line[linecnt])) continue; else break; }`, the test `linecnt > LINESIZE` being in the
first loop only (`bounded`).  The first argument is the string from `line[linecnt]` on; behind
the string `line` holds zeroes.  The result is the bytes stored into `digit`, the string from the
new `line[linecnt]` on, and the new `linecnt`. -/
def copyNumber (bounded : Bool) : List Nat → Nat → List Nat × List Nat × Nat
  | [], linecnt => ([0], [], linecnt + 1)
  | c :: rem, linecnt =>
    if bounded = true ∧ linecnt + 1 > LINESIZE then ([c], rem, linecnt + 1)
    else if isdigit (rem.headD 0) = true then
      (c :: (copyNumber bounded rem (linecnt + 1)).1,
        (copyNumber bounded rem (linecnt + 1)).2.1, (copyNumber bounded rem (linecnt + 1)).2.2)
    else ([c], rem, linecnt + 1)

/-- The array `char digit[80]` after the bytes `chars` have been stored from `digit[0]` on;
`none` when they do not fit. -/
def digitWrite (digit chars : List Nat) : Option (List Nat) :=
  if chars.length ≤ digit.length then some (chars ++ digit.drop chars.length) else none

/-- The string in the array `digit`, as `atoi` gets it; `none` when the array holds no NUL. -/
def digitString (digit : List Nat) : Option (List Nat) :=
  if 0 ∈ digit then some (digit.takeWhile (fun c => c ≠ 0)) else none

/-- The call that a range command ends in. -/
inductive Call
  | lineprint (first last : Int)
  | delete (first last : Int)
  | insert (first last : Int)
  | badFormat
  deriving DecidableEq

/-- The end of the range branch of `main`, lines 449-462, on the string from `line[linecnt]` on:
the operation letter selects the call. -/
def dispatch (first last : Int) (rem : List Nat) : Call :=
  if rem.headD 0 = 112 then Call.lineprint first last
  else if rem.headD 0 = 100 then Call.delete first last
  else if rem.headD 0 = 105 then Call.insert first last
  else Call.badFormat

/-- The range branch of `main`, lines 421-463, which is taken when `isdigit(line[0])`: from the
command line to the call it ends in.  `first` and `last` are 0 when the round starts (line 327);
`digit` starts as 80 zeroes and `memset(digit,0,10)` zeroes its first ten bytes between the two
numbers. -/
def parseRange (line : List Nat) : Option Call :=
  match digitWrite (List.replicate 80 0) (copyNumber true line 0).1 with
  | none => none
  | some digit1 =>
    match digitString digit1 with
    | none => none
    | some str1 =>
      let rem1 := (copyNumber true line 0).2.1
      let linecnt1 := (copyNumber true line 0).2.2
      if rem1.headD 0 = 45 ∨ rem1.headD 0 = 44 then
        match digitWrite (List.replicate 10 0 ++ digit1.drop 10)
            (copyNumber false (rem1.drop 1) (linecnt1 + 1)).1 with
        | none => none
        | some digit2 =>
          match digitString digit2 with
          | none => none
          | some str2 =>
            some (dispatch (atoi str1) (atoi str2)
              ((copyNumber false (rem1.drop 1) (linecnt1 + 1)).2.1.dropWhile isblank))
      else some (dispatch (atoi str1) 0 (rem1.dropWhile isblank))

/-- The message of line 461. -/
def formatMessage : List Nat :=
  "bad format: use mm,nn or mm-nn or mm followed by p/d/i".toList.map Char.toNat ++ [10]

/-- The range branch of `main` with the call carried out: the new state and what the call
writes to `stdout` (the prompts of `insert` are not modelled).  `input` is what `insert` reads. -/
def rangeCommand (fuel : Nat) (s : State) (line : List Nat) (input : List (List Nat))
    (over : List Nat) : Option (State × List Nat) :=
  match parseRange line with
  | none => none
  | some (Call.lineprint first last) => (lineprint fuel s first last over).map (fun o => (s, o.1))
  | some (Call.delete first last) => (delete fuel s first last).map (fun t => (t, []))
  | some (Call.insert first last) => (insert fuel s first last input).map (fun t => (t, []))
  | some Call.badFormat => some (s, formatMessage)

/-- The natural number that a string of decimal digits denotes. -/
def decimal (ds : List Nat) : Nat :=
  Nat.ofDigits 10 ((ds.map (fun c => c - 48)).reverse)

/-! Bytes in the buffer -/

theorem At_append (b : Int → Nat) (xs ys : List Nat) (p : Int) :
    At b p (xs ++ ys) ↔ At b p xs ∧ At b (p + xs.length) ys := by
  induction xs generalizing p with
  | nil => simp [At]
  | cons x xs ih =>
    show (b p = x ∧ At b (p + 1) (xs ++ ys)) ↔
      (b p = x ∧ At b (p + 1) xs) ∧ At b (p + ((xs.length + 1 : Nat) : Int)) ys
    have e : p + ((xs.length + 1 : Nat) : Int) = p + 1 + (xs.length : Int) := by omega
    rw [ih, e, and_assoc]

theorem At_shift (b b2 : Int → Nat) (L : List Nat) (p p2 : Int)
    (h : ∀ j : Nat, j < L.length → b2 (p2 + j) = b (p + j)) (hat : At b p L) : At b2 p2 L := by
  induction L generalizing p p2 with
  | nil => trivial
  | cons x xs ih =>
    refine ⟨?_, ih (p + 1) (p2 + 1) ?_ hat.2⟩
    · have := h 0 (by simp)
      simp only [Nat.cast_zero, add_zero] at this
      rw [this]; exact hat.1
    · intro j hj
      have := h (j + 1) (by simp; omega)
      have e1 : p2 + 1 + (j : Int) = p2 + ((j + 1 : Nat) : Int) := by omega
      have e2 : p + 1 + (j : Int) = p + ((j + 1 : Nat) : Int) := by omega
      rw [e1, e2]; exact this

theorem At_range (b : Int → Nat) (p : Int) (n : Nat) :
    At b p ((List.range n).map (fun (i : Nat) => b (p + (i : Int)))) := by
  induction n with
  | zero => trivial
  | succ n ih =>
    rw [List.range_succ, List.map_append, At_append]
    refine ⟨ih, ?_⟩
    simp [At]

theorem eq_range_of_At (b : Int → Nat) (p : Int) (L : List Nat) (h : At b p L) :
    (List.range L.length).map (fun (i : Nat) => b (p + (i : Int))) = L := by
  induction L using List.reverseRecOn with
  | nil => rfl
  | append_singleton xs x ih =>
    rw [At_append] at h
    rw [List.length_append, List.length_singleton, List.range_succ, List.map_append, ih h.1]
    simp only [List.map_cons, List.map_nil]
    rw [h.2.1]

theorem content_length (s : State) : (content s).length = s.position.toNat := by
  simp [content]

theorem At_of_content (s : State) (L : List Nat) (h : content s = L) : At s.buffer 0 L := by
  have := At_range s.buffer 0 s.position.toNat
  simp only [zero_add] at this
  rw [← h]; exact this

theorem content_of_At (s : State) (L : List Nat) (h : At s.buffer 0 L)
    (hp : s.position = L.length) : content s = L := by
  have := eq_range_of_At s.buffer 0 L h
  simp only [zero_add] at this
  rw [content, hp]; exact this

/-! The scan over a document of lines -/

theorem Line_split (l : List Nat) (h : Line l) :
    ∃ body, l = body ++ [10] ∧ 10 ∉ body ∧ body.length + 1 ≤ LINESIZE - 1 := by
  obtain ⟨h1, h2, h3⟩ := h
  induction l using List.reverseRecOn with
  | nil => simp at h2
  | append_singleton xs x _ =>
    simp at h2
    subst h2
    refine ⟨xs, rfl, ?_, ?_⟩
    · simpa using h3
    · simpa using h1

theorem scanLine_line (b : Int → Nat) (ptr : Int) (body : List Nat)
    (h10 : 10 ∉ body) (h0 : 0 ∉ body) :
    ∀ (k : Nat) (n : Int), At b (ptr + n) (body ++ [10]) → body.length + 1 ≤ k →
      scanLine b ptr k n = (n + body.length + 1, true) := by
  induction body with
  | nil =>
    intro k n hat hk
    obtain ⟨k, rfl⟩ : ∃ j, k = j + 1 := ⟨k - 1, by simp at hk; omega⟩
    have hb : b (ptr + n) = 10 := hat.1
    simp [scanLine, hb]
  | cons c cs ih =>
    intro k n hat hk
    obtain ⟨k, rfl⟩ : ∃ j, k = j + 1 := ⟨k - 1, by simp at hk; omega⟩
    have hb : b (ptr + n) = c := hat.1
    have c0 : c ≠ 0 := fun e => h0 (by simp [e])
    have c10 : c ≠ 10 := fun e => h10 (by simp [e])
    have hat2 : At b (ptr + (n + 1)) (cs ++ [10]) := by
      have := hat.2
      rwa [add_assoc] at this
    rw [scanLine, hb, if_neg c0, if_pos c10,
      ih (fun h => h10 (List.mem_cons_of_mem _ h)) (fun h => h0 (List.mem_cons_of_mem _ h))
        k (n + 1) hat2 (by simp at hk ⊢; omega)]
    simp only [List.length_cons, Nat.cast_add, Nat.cast_one, Prod.mk.injEq, and_true]
    omega

/-- The inner loop on a well-formed line that stands at `ptr`: it stops behind the newline. -/
theorem scanLine_of_Line (b : Int → Nat) (ptr : Int) (l : List Nat) (hl : Line l)
    (h0 : NulFree l) (hat : At b ptr l) : scanLine b ptr LINESIZE 0 = ((l.length : Int), true) := by
  obtain ⟨body, rfl, h10, hlen⟩ := Line_split l hl
  have h0b : 0 ∉ body := fun h => h0 (by simp [h])
  have := scanLine_line b ptr body h10 h0b LINESIZE 0 (by simpa using hat)
    (by simp only [LINESIZE] at hlen ⊢; omega)
  rw [this]
  simp

theorem Line_length_pos (l : List Nat) (h : Line l) : 1 ≤ l.length := by
  obtain ⟨body, rfl, _, _⟩ := Line_split l h
  simp

theorem Line_length_two (l : List Nat) (h : Line l) (hb : l ≠ [10]) : 2 ≤ l.length := by
  obtain ⟨body, rfl, _, _⟩ := Line_split l h
  cases body with
  | nil => exact absurd rfl hb
  | cons c cs => simp

/-- What follows a line in the document is at least two bytes long, unless it is nothing or one
blank line. -/
theorem flatten_length_two (ls : List (List Nat)) (hne : ls ≠ []) (hb : ls ≠ [[10]])
    (hl : ∀ l ∈ ls, Line l) : 2 ≤ ls.flatten.length := by
  match ls, hne, hb, hl with
  | [x], _, hb, hl =>
    have hx : x ≠ [10] := fun e => hb (by rw [e])
    have := Line_length_two x (hl x (by simp)) hx
    simpa using this
  | x :: y :: zs, _, _, hl =>
    have h1 := Line_length_pos x (hl x (by simp))
    have h2 := Line_length_pos y (hl y (by simp))
    simp only [List.flatten_cons, List.length_append]
    omega

/-- The scan of `delete`/`insert` over a document of well-formed lines returns, having looked
at the lines `visited`. -/
theorem scanRange_visits (b : Int → Nat) (position first last : Int) :
    ∀ (rest : List (List Nat)) (fuel : Nat) (linecnt ptr sp ep : Int),
      (∀ l ∈ rest, Line l) → (∀ l ∈ rest, NulFree l) → rest ≠ [] →
      At b ptr rest.flatten →
      ptr + rest.flatten.length = position → rest.length ≤ fuel →
      scanRange b position first last fuel linecnt ptr sp ep =
        some (resolve first false (visited rest) linecnt ptr sp,
          resolve last true (visited rest) linecnt ptr ep) := by
  intro rest
  induction rest with
  | nil => intro _ _ _ _ _ _ _ hne; exact absurd rfl hne
  | cons l rest ih =>
    intro fuel linecnt ptr sp ep hl h0 _ hat hpos hfuel
    obtain ⟨fuel, rfl⟩ : ∃ f, fuel = f + 1 := ⟨fuel - 1, by simp at hfuel; omega⟩
    rw [List.flatten_cons, At_append] at hat
    rw [List.flatten_cons, List.length_append] at hpos
    have hsl := scanLine_of_Line b ptr l (hl l (by simp)) (h0 l (by simp)) hat.1
    rw [scanRange, hsl]
    by_cases hr : rest = []
    · subst hr
      have hstop : ptr + (l.length : Int) ≥ position - 1 := by
        simp at hpos; omega
      simp [hstop, resolve, visited]
    · by_cases hb : rest = [[10]]
      · subst hb
        have hstop : ptr + (l.length : Int) ≥ position - 1 := by
          simp at hpos; omega
        simp [hstop, resolve, visited]
      · have h2 := flatten_length_two rest hr hb (fun x hx => hl x (List.mem_cons_of_mem _ hx))
        have hgo : ¬ (ptr + (l.length : Int) ≥ position - 1) := by
          push_cast at hpos; omega
        have := ih fuel (linecnt + 1) (ptr + l.length)
          (if linecnt = first then ptr else sp) (if linecnt = last then ptr + l.length else ep)
          (fun x hx => hl x (List.mem_cons_of_mem _ hx))
          (fun x hx => h0 x (List.mem_cons_of_mem _ hx)) hr hat.2
          (by push_cast at hpos; omega) (by simp at hfuel; omega)
        simp only [hgo, if_false, true_and, this, resolve, visited, hb]
        simp

/-- Line `k + 1` is among the visited lines, and so are the lines before it, when the last line
is not blank, or line `k + 1` is not the last line, or there is one line only. -/
theorem visited_take :
    ∀ (doc : List (List Nat)) (k : Nat), k < doc.length →
      (doc.getLast? ≠ some [10] ∨ k + 1 < doc.length ∨ doc.length = 1) →
      k < (visited doc).length ∧ (visited doc).take (k + 1) = doc.take (k + 1) := by
  intro doc
  induction doc with
  | nil => intro k hk; simp at hk
  | cons l rest ih =>
    intro k hk hc
    by_cases hb : rest = [[10]]
    · subst hb
      have hk0 : k = 0 := by
        rcases hc with h | h | h
        · exact absurd rfl h
        · simp at h; omega
        · simp at h
      subst hk0
      simp [visited]
    · rw [visited, if_neg hb]
      cases k with
      | zero => simp
      | succ k =>
        have hk2 : k < rest.length := by simpa using hk
        have hne : rest ≠ [] := by
          intro e; rw [e] at hk2; simp at hk2
        have hc2 : rest.getLast? ≠ some [10] ∨ k + 1 < rest.length ∨ rest.length = 1 := by
          rcases hc with h | h | h
          · left
            obtain ⟨c, cs, rfl⟩ := List.exists_cons_of_ne_nil hne
            rwa [List.getLast?_cons_cons] at h
          · right; left; simpa using h
          · simp at h; exact absurd h hne
        obtain ⟨h1, h2⟩ := ih k hk2 hc2
        refine ⟨by simpa using h1, ?_⟩
        rw [List.take_succ_cons, List.take_succ_cons, h2]

/-- Where no line number is looked for any more, the scan returns what it was given; the last
line may be blank and the document empty. -/
theorem scanRange_nomatch (b : Int → Nat) (position first last : Int) (hz : b position = 0) :
    ∀ (rest : List (List Nat)) (fuel : Nat) (linecnt ptr sp ep : Int),
      (∀ l ∈ rest, Line l) → (∀ l ∈ rest, NulFree l) → At b ptr rest.flatten →
      ptr + rest.flatten.length = position → rest.length + 1 ≤ fuel →
      linecnt + rest.length ≤ first → linecnt + rest.length ≤ last →
      scanRange b position first last fuel linecnt ptr sp ep = some (sp, ep) := by
  intro rest
  induction rest with
  | nil =>
    intro fuel linecnt ptr sp ep _ _ _ hpos hfuel _ _
    obtain ⟨fuel, rfl⟩ : ∃ f, fuel = f + 1 := ⟨fuel - 1, by omega⟩
    have hp : ptr = position := by simpa using hpos
    have hsl : scanLine b ptr LINESIZE 0 = (0, false) := by
      simp [scanLine, LINESIZE, hp, hz]
    rw [scanRange, hsl]
    have hstop : ptr + 0 ≥ position - 1 := by omega
    rw [if_pos hstop]
    simp
  | cons l rest ih =>
    intro fuel linecnt ptr sp ep hl h0 hat hpos hfuel hfirst hlast
    obtain ⟨fuel, rfl⟩ : ∃ f, fuel = f + 1 := ⟨fuel - 1, by omega⟩
    rw [List.flatten_cons, At_append] at hat
    rw [List.flatten_cons, List.length_append] at hpos
    have hsl := scanLine_of_Line b ptr l (hl l (by simp)) (h0 l (by simp)) hat.1
    have n1 : ¬ (linecnt = first) := by simp at hfirst; omega
    have n2 : ¬ (linecnt = last) := by simp at hlast; omega
    rw [scanRange, hsl]
    simp only [n1, n2, and_false, if_false]
    by_cases hstop : ptr + (l.length : Int) ≥ position - 1
    · simp [hstop]
    · simp only [hstop, if_false]
      exact ih fuel (linecnt + 1) (ptr + l.length) sp ep
        (fun x hx => hl x (List.mem_cons_of_mem _ hx))
        (fun x hx => h0 x (List.mem_cons_of_mem _ hx)) hat.2
        (by push_cast at hpos; omega) (by simp at hfuel; omega)
        (by simp at hfirst; omega) (by simp at hlast; omega)

/-! Reading the resolved offsets off the list of lines -/

theorem resolve_lt (target : Int) (atEnd : Bool) :
    ∀ (ls : List (List Nat)) (linecnt ptr r : Int), target < linecnt →
      resolve target atEnd ls linecnt ptr r = r := by
  intro ls
  induction ls with
  | nil => intros; rfl
  | cons l ls ih =>
    intro linecnt ptr r h
    have n1 : ¬ (linecnt = target) := by omega
    rw [resolve, if_neg n1, ih _ _ _ (by omega)]

theorem resolve_start :
    ∀ (ls : List (List Nat)) (k : Nat) (linecnt ptr r : Int), k < ls.length →
      resolve (linecnt + k) false ls linecnt ptr r = ptr + ((ls.take k).flatten.length : Int) := by
  intro ls
  induction ls with
  | nil => intro k _ _ _ h; simp at h
  | cons l ls ih =>
    intro k linecnt ptr r h
    cases k with
    | zero =>
      rw [resolve]
      simp only [Nat.cast_zero, add_zero, if_true, List.take_zero, List.flatten_nil,
        List.length_nil]
      rw [resolve_lt _ _ _ _ _ _ (by omega)]
      simp
    | succ k =>
      have n1 : ¬ (linecnt = linecnt + ((k + 1 : Nat) : Int)) := by omega
      have e : linecnt + ((k + 1 : Nat) : Int) = linecnt + 1 + (k : Int) := by omega
      rw [resolve, if_neg n1, e, ih k (linecnt + 1) (ptr + l.length) r (by simp at h; omega)]
      simp only [List.take_succ_cons, List.flatten_cons, List.length_append, Nat.cast_add]
      omega

theorem resolve_end :
    ∀ (ls : List (List Nat)) (k : Nat) (linecnt ptr r : Int), k < ls.length →
      resolve (linecnt + k) true ls linecnt ptr r =
        ptr + ((ls.take (k + 1)).flatten.length : Int) := by
  intro ls
  induction ls with
  | nil => intro k _ _ _ h; simp at h
  | cons l ls ih =>
    intro k linecnt ptr r h
    cases k with
    | zero =>
      rw [resolve]
      simp only [Nat.cast_zero, add_zero, if_true]
      rw [resolve_lt _ _ _ _ _ _ (by omega)]
      simp
    | succ k =>
      have n1 : ¬ (linecnt = linecnt + ((k + 1 : Nat) : Int)) := by omega
      have e : linecnt + ((k + 1 : Nat) : Int) = linecnt + 1 + (k : Int) := by omega
      rw [resolve, if_neg n1, e, ih k (linecnt + 1) (ptr + l.length) r (by simp at h; omega)]
      simp only [List.take_succ_cons, List.flatten_cons, List.length_append, Nat.cast_add]
      omega

/-! Fuel: a loop that has returned returns the same with more fuel -/

theorem scanRange_mono (b : Int → Nat) (position first last : Int) (k : Nat) :
    ∀ (fuel : Nat) (linecnt ptr sp ep : Int) (r : Int × Int),
      scanRange b position first last fuel linecnt ptr sp ep = some r →
      scanRange b position first last (fuel + k) linecnt ptr sp ep = some r := by
  intro fuel
  induction fuel with
  | zero => intro _ _ _ _ r h; exact Option.noConfusion h
  | succ fuel ih =>
    intro linecnt ptr sp ep r h
    rw [Nat.add_right_comm, scanRange]
    rw [scanRange] at h
    split_ifs at h ⊢ <;> first | exact h | exact ih _ _ _ _ r h

theorem shiftDown_mono (startpos endpos position : Int) (k : Nat) :
    ∀ (fuel : Nat) (b : Int → Nat) (n : Int) (r : Int → Nat),
      shiftDown startpos endpos position fuel b n = some r →
      shiftDown startpos endpos position (fuel + k) b n = some r := by
  intro fuel
  induction fuel with
  | zero => intro _ _ r h; exact Option.noConfusion h
  | succ fuel ih =>
    intro b n r h
    rw [Nat.add_right_comm, shiftDown]
    rw [shiftDown] at h
    split_ifs at h ⊢ with c
    · exact h
    · exact ih _ _ r h

theorem shiftUp_mono (ptr position startpos : Int) (k : Nat) :
    ∀ (fuel : Nat) (b : Int → Nat) (n : Int) (r : Int → Nat),
      shiftUp ptr position startpos fuel b n = some r →
      shiftUp ptr position startpos (fuel + k) b n = some r := by
  intro fuel
  induction fuel with
  | zero => intro _ _ r h; exact Option.noConfusion h
  | succ fuel ih =>
    intro b n r h
    rw [Nat.add_right_comm, shiftUp]
    rw [shiftUp] at h
    split_ifs at h ⊢ with c
    · exact h
    · exact ih _ _ r h

theorem lineprintLoop_mono (b : Int → Nat) (position first last : Int) (over : List Nat)
    (k : Nat) :
    ∀ (fuel : Nat) (linecnt ptr : Int) (out r : List Nat × List Int),
      lineprintLoop b position first last over fuel linecnt ptr out = some r →
      lineprintLoop b position first last over (fuel + k) linecnt ptr out = some r := by
  intro fuel
  induction fuel with
  | zero => intro _ _ _ r h; exact Option.noConfusion h
  | succ fuel ih =>
    intro linecnt ptr out r h
    rw [Nat.add_right_comm, lineprintLoop]
    rw [lineprintLoop] at h
    split_ifs at h ⊢ <;> first | exact h | exact ih _ _ _ r h

theorem delete_mono (fuel k : Nat) (s r : State) (first last : Int)
    (h : delete fuel s first last = some r) : delete (fuel + k) s first last = some r := by
  simp only [delete] at h ⊢
  cases hsc : scanRange s.buffer s.position first (if first > last then first else last)
      fuel 1 0 0 0 with
  | none => simp only [hsc] at h; exact Option.noConfusion h
  | some p =>
    simp only [hsc] at h
    rw [scanRange_mono _ _ _ _ k fuel _ _ _ _ p hsc]
    cases hsd : shiftDown p.1 (p.2 - 1) s.position fuel
        (zeroFrom (p.2 - 1 - p.1 + 1).toNat s.buffer p.1) 0 with
    | none => simp only [hsd] at h; exact Option.noConfusion h
    | some b2 =>
      simp only [hsd] at h
      simp only [shiftDown_mono _ _ _ k fuel _ _ b2 hsd]
      exact h

theorem insloop_mono (fuel k : Nat) :
    ∀ (input : List (List Nat)) (s r : State) (sp : Int),
      insloop fuel input s sp = some r → insloop (fuel + k) input s sp = some r := by
  intro input
  induction input with
  | nil => intro _ r _ h; exact Option.noConfusion h
  | cons l input ih =>
    intro s r sp h
    rw [insloop] at h ⊢
    split_ifs at h ⊢ with c1 c2
    · exact h
    · cases hsu : shiftUp (s.position + ((l.takeWhile (fun c => decide (c ≠ 0))).length : Int))
          s.position sp fuel s.buffer 0 with
      | none => simp only [hsu] at h; exact Option.noConfusion h
      | some b1 =>
        simp only [hsu] at h
        simp only [shiftUp_mono _ _ _ k fuel _ _ b1 hsu]
        exact ih _ r _ h

theorem insert_mono (fuel k : Nat) (s r : State) (first last : Int) (input : List (List Nat))
    (h : insert fuel s first last input = some r) :
    insert (fuel + k) s first last input = some r := by
  simp only [insert] at h ⊢
  cases hsc : scanRange s.buffer s.position first (if first > last then first else last)
      fuel 1 0 0 0 with
  | none => simp only [hsc] at h; exact Option.noConfusion h
  | some p =>
    simp only [hsc] at h
    rw [scanRange_mono _ _ _ _ k fuel _ _ _ _ p hsc]
    exact insloop_mono fuel k input s r p.1 h

/-- The state `delete` returns does not depend on the fuel it was given. -/
theorem delete_fuel_irrelevant (f g : Nat) (s r1 r2 : State) (first last : Int)
    (h1 : delete f s first last = some r1) (h2 : delete g s first last = some r2) : r1 = r2 := by
  have a := delete_mono f g s r1 first last h1
  have b := delete_mono g f s r2 first last h2
  rw [Nat.add_comm g f, a] at b
  exact Option.some.inj b

/-- The state `insert` returns does not depend on the fuel it was given. -/
theorem insert_fuel_irrelevant (f g : Nat) (s r1 r2 : State) (first last : Int)
    (input : List (List Nat))
    (h1 : insert f s first last input = some r1) (h2 : insert g s first last input = some r2) :
    r1 = r2 := by
  have a := insert_mono f g s r1 first last input h1
  have b := insert_mono g f s r2 first last input h2
  rw [Nat.add_comm g f, a] at b
  exact Option.some.inj b

/-- What `lineprint` writes does not depend on the fuel it was given. -/
theorem lineprint_fuel_irrelevant (f g : Nat) (s : State) (first last : Int)
    (over : List Nat) (r1 r2 : List Nat × List Int)
    (h1 : lineprint f s first last over = some r1)
    (h2 : lineprint g s first last over = some r2) : r1 = r2 := by
  have a := lineprintLoop_mono _ _ _ _ _ g f _ _ _ r1 h1
  have b := lineprintLoop_mono _ _ _ _ _ f g _ _ _ r2 h2
  rw [Nat.add_comm g f, a] at b
  exact Option.some.inj b

/-! The loops of `delete` in closed form -/

theorem poke_apply (b : Int → Nat) (i : Int) (v : Nat) (j : Int) :
    poke b i v j = if j = i then v else b j := rfl

theorem zeroFrom_apply (k : Nat) (b : Int → Nat) (n i : Int) :
    zeroFrom k b n i = if n ≤ i ∧ i < n + k then 0 else b i := by
  induction k generalizing b n with
  | zero =>
    rw [zeroFrom]
    split_ifs <;> first | rfl | omega
  | succ k ih =>
    rw [zeroFrom, ih, poke_apply]
    split_ifs <;> first | rfl | omega

/-- The copy loop of `delete` run from `n` to its exit at `n + d = position - endpos`, when the
source does not lie below the destination. -/
theorem shiftDown_spec (startpos endpos position : Int) (hle : startpos ≤ endpos + 1) :
    ∀ (d fuel : Nat) (b : Int → Nat) (n : Int), 1 ≤ d → d ≤ fuel → 0 ≤ n →
      n + d + endpos = position →
      ∃ b2, shiftDown startpos endpos position fuel b n = some b2 ∧
        ∀ i, b2 i = if startpos + n ≤ i ∧ i < startpos + n + d
          then b (i + (endpos + 1 - startpos)) else b i := by
  intro d
  induction d with
  | zero => intro fuel b n h; omega
  | succ d ih =>
    intro fuel b n _ hf hn hpos
    obtain ⟨fuel, rfl⟩ : ∃ f, fuel = f + 1 := ⟨fuel - 1, by omega⟩
    rw [shiftDown]
    by_cases hd : d = 0
    · subst hd
      have hex : n + 1 + endpos = position := by omega
      refine ⟨poke b (startpos + n) (b (endpos + n + 1)), by simp [hex], ?_⟩
      intro i
      rw [poke_apply]
      split_ifs <;> first | rfl | omega | (congr 1; omega)
    · have hex : ¬ (n + 1 + endpos = position) := by omega
      obtain ⟨b2, hb2, hspec⟩ := ih fuel (poke b (startpos + n) (b (endpos + n + 1))) (n + 1)
        (by omega) (by omega) (by omega) (by omega)
      refine ⟨b2, by simp [hex, hb2], ?_⟩
      intro i
      rw [hspec i, poke_apply, poke_apply]
      split_ifs <;> first | rfl | omega | (congr 1; omega)

/-- What `delete` does once its scan has resolved `startpos ≤ endpos ≤ position` (`endpos` before
the decrement of line 157): it returns, the bytes from `endpos` up to and including `position`
are moved down to `startpos`, and the cells above them up to `position` are zeroed. -/
theorem delete_of_scan (fuel : Nat) (s : State) (first last sp ep : Int)
    (hscan : scanRange s.buffer s.position first (if first > last then first else last)
      fuel 1 0 0 0 = some (sp, ep))
    (h1 : sp ≤ ep) (h2 : ep ≤ s.position) (hf : (s.position - ep + 1).toNat ≤ fuel) :
    ∃ s', delete fuel s first last = some s' ∧
      s'.position = s.position - (ep - sp) ∧ s'.BUFSIZE = s.BUFSIZE ∧
      ∀ i, s'.buffer i =
        if sp ≤ i ∧ i ≤ s.position - (ep - sp) then s.buffer (i + (ep - sp))
        else if s.position - (ep - sp) < i ∧ i ≤ s.position then 0 else s.buffer i := by
  obtain ⟨b2, hb2, hspec⟩ := shiftDown_spec sp (ep - 1) s.position (by omega)
    (s.position - ep + 1).toNat fuel
    (zeroFrom (ep - 1 - sp + 1).toNat s.buffer sp) 0 (by omega) hf (by omega) (by omega)
  refine ⟨{ buffer := zeroFrom (s.position - (s.position - (ep - 1 - sp)) + 1).toNat b2
              (s.position - (ep - 1 - sp))
            position := s.position - (ep - 1 - sp) - 1
            BUFSIZE := s.BUFSIZE }, by simp only [delete, hscan, hb2], ?_, rfl, ?_⟩
  · show s.position - (ep - 1 - sp) - 1 = s.position - (ep - sp)
    omega
  intro i
  show zeroFrom _ b2 _ i = _
  simp only [zeroFrom_apply, hspec]
  split_ifs <;> first | rfl | omega | (congr 1; omega)

/-! The function `delete` on a document of lines -/

theorem length_le_flatten (ls : List (List Nat)) (hl : ∀ l ∈ ls, Line l) :
    ls.length ≤ ls.flatten.length := by
  induction ls with
  | nil => simp
  | cons l ls ih =>
    have h1 := Line_length_pos l (hl l (by simp))
    have h2 := ih (fun x hx => hl x (List.mem_cons_of_mem _ hx))
    simp only [List.length_cons, List.flatten_cons, List.length_append]
    omega

theorem position_of_content (s : State) (L : List Nat) (hpos : 0 ≤ s.position)
    (h : content s = L) : s.position = L.length := by
  have := content_length s
  rw [h] at this
  omega

/-- A document of one line or more has a positive `position`. -/
theorem position_nonneg_of_lines (s : State) (lines : List (List Nat))
    (hdoc : content s = lines.flatten) (hline : ∀ l ∈ lines, Line l)
    (hne : 1 ≤ lines.length) : 0 ≤ s.position := by
  have h1 := content_length s
  have h2 := length_le_flatten lines hline
  rw [hdoc] at h1
  omega

/-- The scan resolves `startpos` for line `k + 1` to the length of the `k` lines before it. -/
theorem resolve_visited_start (doc : List (List Nat)) (k : Nat) (hk : k < doc.length)
    (hc : doc.getLast? ≠ some [10] ∨ k + 1 < doc.length ∨ doc.length = 1) :
    resolve ((k : Int) + 1) false (visited doc) 1 0 0 = ((doc.take k).flatten.length : Int) := by
  obtain ⟨h1, h2⟩ := visited_take doc k hk hc
  have e1 : ((k : Int) + 1) = 1 + (k : Int) := by omega
  have e2 : (visited doc).take k = doc.take k := by
    have a1 : (visited doc).take k = ((visited doc).take (k + 1)).take k := by
      rw [List.take_take]; congr 1; omega
    have a2 : doc.take k = (doc.take (k + 1)).take k := by
      rw [List.take_take]; congr 1; omega
    rw [a1, a2, h2]
  rw [e1, resolve_start (visited doc) k 1 0 0 h1, e2]
  omega

/-- The scan resolves `endpos` for line `k + 1` to the length of the lines up to it. -/
theorem resolve_visited_end (doc : List (List Nat)) (k : Nat) (hk : k < doc.length)
    (hc : doc.getLast? ≠ some [10] ∨ k + 1 < doc.length ∨ doc.length = 1) :
    resolve ((k : Int) + 1) true (visited doc) 1 0 0 =
      ((doc.take (k + 1)).flatten.length : Int) := by
  obtain ⟨h1, h2⟩ := visited_take doc k hk hc
  have e1 : ((k : Int) + 1) = 1 + (k : Int) := by omega
  rw [e1, resolve_end (visited doc) k 1 0 0 h1, h2]
  omega

/-- Deleting the block `M` of lines from the document `P ++ M ++ S`, when the last line of the
document is not blank, or lines follow the block, or the document is one line: `delete` returns,
and the buffer is described cell by cell. -/
theorem delete_block (s : State) (P M S : List (List Nat)) (fuel : Nat)
    (hpos : 0 ≤ s.position) (hdoc : content s = (P ++ M ++ S).flatten)
    (hline : ∀ l ∈ P ++ M ++ S, Line l) (hnul : ∀ l ∈ P ++ M ++ S, NulFree l)
    (hM : M ≠ [])
    (hlast : (P ++ M ++ S).getLast? ≠ some [10] ∨ S ≠ [] ∨ (P ++ M ++ S).length = 1)
    (hfuel : s.position.toNat + 2 ≤ fuel) :
    ∃ s', delete fuel s (P.length + 1) (P.length + M.length) = some s' ∧
      content s' = (P ++ S).flatten ∧
      s'.position = s.position - M.flatten.length ∧ s'.BUFSIZE = s.BUFSIZE ∧
      ∀ i, s'.buffer i =
        if (P.flatten.length : Int) ≤ i ∧ i ≤ s.position - M.flatten.length
        then s.buffer (i + M.flatten.length)
        else if s.position - M.flatten.length < i ∧ i ≤ s.position then 0 else s.buffer i := by
  have hp := position_of_content s _ hpos hdoc
  have hat := At_of_content s _ hdoc
  have hMl := List.length_pos.mpr hM
  have hN := length_le_flatten _ hline
  have hnorm : (if ((P.length : Int) + 1) > (P.length : Int) + M.length
      then ((P.length : Int) + 1) else (P.length : Int) + M.length) = (P.length : Int) + M.length := by
    have : ¬ (((P.length : Int) + 1) > (P.length : Int) + M.length) := by omega
    rw [if_neg this]
  have hne : P ++ M ++ S ≠ [] := by simp [hM]
  have hscan := scanRange_visits s.buffer s.position ((P.length : Int) + 1)
    ((P.length : Int) + M.length) (P ++ M ++ S) fuel 1 0 0 0 hline hnul hne hat (by omega)
    (by omega)
  have hlen : (P ++ M ++ S).length = P.length + M.length + S.length := by
    simp only [List.length_append]
  have hS : S ≠ [] → 0 < S.length := List.length_pos.mpr
  have hc1 : (P ++ M ++ S).getLast? ≠ some [10] ∨ P.length + 1 < (P ++ M ++ S).length ∨
      (P ++ M ++ S).length = 1 := by
    rcases hlast with h | h | h
    · exact Or.inl h
    · right; left; have := hS h; omega
    · exact Or.inr (Or.inr h)
  have hc2 : (P ++ M ++ S).getLast? ≠ some [10] ∨
      (P.length + M.length - 1) + 1 < (P ++ M ++ S).length ∨ (P ++ M ++ S).length = 1 := by
    rcases hlast with h | h | h
    · exact Or.inl h
    · right; left; have := hS h; omega
    · exact Or.inr (Or.inr h)
  have e2 : ((P.length : Int) + M.length) = ((P.length + M.length - 1 : Nat) : Int) + 1 := by
    omega
  have e3 : P.length + M.length - 1 + 1 = (P ++ M).length := by
    simp only [List.length_append]; omega
  rw [resolve_visited_start _ P.length (by omega) hc1, e2,
    resolve_visited_end _ (P.length + M.length - 1) (by omega) hc2, ← e2, e3,
    List.take_left, List.append_assoc, List.take_left] at hscan
  have hflat : (P ++ M ++ S).flatten.length =
      P.flatten.length + M.flatten.length + S.flatten.length := by
    simp only [List.flatten_append, List.length_append]
  have hPM : (P ++ M).flatten.length = P.flatten.length + M.flatten.length := by
    simp only [List.flatten_append, List.length_append]
  rw [hflat] at hp
  rw [hPM] at hscan
  obtain ⟨s', hd, hpos', hbs, hbuf⟩ := delete_of_scan fuel s (P.length + 1) (P.length + M.length)
    (P.flatten.length) ((P.flatten.length + M.flatten.length : Nat) : Int)
    (by rw [hnorm]; exact hscan) (by omega) (by omega) (by omega)
  have hd' : ((P.flatten.length + M.flatten.length : Nat) : Int) - (P.flatten.length : Int)
      = (M.flatten.length : Int) := by omega
  rw [hd'] at hpos' hbuf
  refine ⟨s', hd, ?_, hpos', hbs, hbuf⟩
  apply content_of_At
  · rw [List.flatten_append, List.flatten_append, At_append, At_append] at hat
    rw [List.flatten_append, At_append]
    constructor
    · refine At_shift s.buffer s'.buffer _ 0 0 ?_ hat.1.1
      intro j hj
      rw [hbuf]
      split_ifs <;> first | rfl | omega
    · refine At_shift s.buffer s'.buffer _ (0 + (P.flatten ++ M.flatten).length) _ ?_ hat.2
      intro j hj
      rw [hbuf]
      simp only [List.length_append]
      split_ifs <;> first | rfl | omega | (congr 1; push_cast; omega)
  · rw [hpos', List.flatten_append, List.length_append]
    omega

theorem mkState_zero (bytes : List Nat) (i : Int) (h : (bytes.length : Int) ≤ i) :
    (mkState bytes).buffer i = 0 := by
  show (if i < 0 then 0 else bytes.getD i.toNat 0) = 0
  split_ifs
  · rfl
  · exact List.getD_eq_default _ _ (by omega)

/-- The three blocks a range `first..last` cuts a list of lines into. -/
theorem lines_split (lines : List (List Nat)) (first last : Nat)
    (h1 : 1 ≤ first) (h2 : first ≤ last) (h3 : last ≤ lines.length) :
    lines.take (first - 1) ++ (lines.drop (first - 1)).take (last - (first - 1)) ++ lines.drop last
      = lines ∧
    (lines.take (first - 1)).length = first - 1 ∧
    ((lines.drop (first - 1)).take (last - (first - 1))).length = last - (first - 1) := by
  refine ⟨?_, ?_, ?_⟩
  · rw [← List.take_add]
    have : first - 1 + (last - (first - 1)) = last := by omega
    rw [this, List.take_append_drop]
  · rw [List.length_take]; omega
  · rw [List.length_take, List.length_drop]; omega

/-- C1. `delete` on a range inside the document.  The content of the buffer is the `N ≥ 1` lines
`lines`, each newline-terminated, at most `LINESIZE - 1` bytes long and free of NUL, the last of
them not blank, and every byte from `position` upward is zero.  For `1 ≤ first ≤ last ≤ N`,
`delete(first, last)` returns (with fuel `position + 2` or more) and leaves as content the lines
`1..first-1` followed by the lines `last+1..N`, `position` reduced by the byte length of the lines
`first..last`, `BUFSIZE` as it was, and every byte from the new `position` upward zero. -/
theorem delete_inside (s : State) (lines : List (List Nat)) (first last fuel : Nat)
    (hdoc : content s = lines.flatten)
    (hline : ∀ l ∈ lines, Line l) (hnul : ∀ l ∈ lines, NulFree l)
    (hlast : lines.getLast? ≠ some [10])
    (hzero : ∀ i, s.position ≤ i → s.buffer i = 0)
    (h1 : 1 ≤ first) (h2 : first ≤ last) (h3 : last ≤ lines.length)
    (hfuel : s.position.toNat + 2 ≤ fuel) :
    ∃ s', delete fuel s first last = some s' ∧
      content s' = (lines.take (first - 1)).flatten ++ (lines.drop last).flatten ∧
      s'.position = s.position -
        (((lines.drop (first - 1)).take (last - (first - 1))).flatten.length : Int) ∧
      s'.BUFSIZE = s.BUFSIZE ∧
      ∀ i, s'.position ≤ i → s'.buffer i = 0 := by
  obtain ⟨hsplit, hP, hM⟩ := lines_split lines first last h1 h2 h3
  have hpos := position_nonneg_of_lines s lines hdoc hline (by omega)
  have hMne : (lines.drop (first - 1)).take (last - (first - 1)) ≠ [] := by
    intro e; rw [e] at hM; simp at hM; omega
  have hp := position_of_content s _ hpos hdoc
  obtain ⟨s', hd, hc, hpos', hbs, hbuf⟩ := delete_block s (lines.take (first - 1))
    ((lines.drop (first - 1)).take (last - (first - 1))) (lines.drop last) fuel hpos
    (by rw [hsplit]; exact hdoc) (by rw [hsplit]; exact hline) (by rw [hsplit]; exact hnul)
    hMne (by rw [hsplit]; exact Or.inl hlast) hfuel
  have e1 : (((lines.take (first - 1)).length : Nat) : Int) + 1 = (first : Int) := by
    rw [hP]; omega
  have e2 : (((lines.take (first - 1)).length : Nat) : Int) +
      (((lines.drop (first - 1)).take (last - (first - 1))).length : Nat) = (last : Int) := by
    rw [hP, hM]; omega
  rw [e1, e2] at hd
  refine ⟨s', hd, ?_, hpos', hbs, ?_⟩
  · rw [hc, List.flatten_append]
  · intro i hi
    have hlen : lines.flatten.length = (lines.take (first - 1)).flatten.length +
        ((lines.drop (first - 1)).take (last - (first - 1))).flatten.length +
        (lines.drop last).flatten.length := by
      conv_lhs => rw [← hsplit]
      simp only [List.flatten_append, List.length_append]
    rw [hbuf]
    split_ifs with c1 c2
    · exact hzero _ (by omega)
    · rfl
    · exact hzero _ (by omega)

theorem delete_inside_witness :
    ∃ s', delete 13 (mkState [97, 108, 112, 104, 97, 10, 98, 101, 116, 97, 10]) 1 1 = some s' ∧
      content s' = [98, 101, 116, 97, 10] ∧ s'.position = 5 ∧ s'.BUFSIZE = 8192 ∧
      ∀ i, s'.position ≤ i → s'.buffer i = 0 :=
  delete_inside (mkState [97, 108, 112, 104, 97, 10, 98, 101, 116, 97, 10])
    [[97, 108, 112, 104, 97, 10], [98, 101, 116, 97, 10]] 1 1 13
    (by decide) (by decide) (by decide) (by decide)
    (mkState_zero _) (by decide) (by decide) (by decide) (by decide)

/-- C2. Two lines are appended to the empty buffer, `"a\n"` and the blank line `"\n"`, and the
entry loop is left with `"."`.  Both lines are stored (the content is `"a\n\n"`, `position` 3),
but `lineprint(1,2)` returns having written only `001] a`: its loop test `ptr < position-1`
fails at `ptr = 2`, one byte before the end, and the blank last line is never visited. -/
theorem lineprint_misses_final_blank_line :
    (append (init (fun _ => 0)) [[97, 10], [10], [46, 10]]).map (fun s => (content s, s.position))
      = some ([97, 10, 10], 3) ∧
    (append (init (fun _ => 0)) [[97, 10], [10], [46, 10]]).bind (fun s => lineprint 20 s 1 2 [])
      = some ([48, 48, 49, 93, 32, 97, 10], []) := by
  constructor <;> decide

/-- C5. On the document `"a\nb\n"` (`position` 4), `delete(2,5)` has its upper bound past the
last line: `endpos` keeps its initial 0 and becomes -1, the copy loop copies the buffer onto
itself two bytes up, and `delete` returns with `position` 6 and content `"a\na\na\n"`; nothing
is removed. -/
theorem delete_upper_bound_past_end :
    (delete 20 (mkState [97, 10, 98, 10]) 2 5).map (fun s => (content s, s.position))
      = some ([97, 10, 97, 10, 97, 10], 6) := by
  decide

/-- C6. On the document `"a\nb\n"`, `insert(5,5)` addresses a line past the last one: the scan
leaves `startpos` at its initial 0, not at `position` = 4, and the entered line `"x\n"` goes in
front of the document: the content becomes `"x\na\nb\n"`. -/
theorem insert_past_end_goes_first :
    scanRange (mkState [97, 10, 98, 10]).buffer 4 5 5 20 1 0 0 0 = some (0, 0) ∧
    (insert 20 (mkState [97, 10, 98, 10]) 5 5 [[120, 10], [46, 10]]).map
      (fun s => (content s, s.position)) = some ([120, 10, 97, 10, 98, 10], 6) := by
  constructor <;> decide

/-- C8. On the document `"ab\ncd\nef\n"` (`position` 9), `delete(3,7)` returns with `position`
15: `delete` has made the document longer. -/
theorem delete_can_grow :
    (delete 20 (mkState [97, 98, 10, 99, 100, 10, 101, 102, 10]) 3 7).map
      (fun s => (s.position, s.BUFSIZE)) = some (15, 8192) := by
  decide

/-! The function `delete` addressed past the last line -/

/-- A NUL byte met before the last two bytes of the document stalls the scan: the inner loop
copies nothing, `ptr` does not move, and the exit test fails again. -/
theorem scanRange_stalls (b : Int → Nat) (position first last ptr : Int)
    (hz : b ptr = 0) (hp : ptr < position - 1) :
    ∀ (fuel : Nat) (linecnt sp ep : Int),
      scanRange b position first last fuel linecnt ptr sp ep = none := by
  intro fuel
  induction fuel with
  | zero => intros; rfl
  | succ fuel ih =>
    intro linecnt sp ep
    have hsl : scanLine b ptr LINESIZE 0 = (0, false) := by
      simp [scanLine, LINESIZE, hz]
    have hgo : ¬ (ptr + (0 : Int) ≥ position - 1) := by omega
    rw [scanRange, hsl]
    simp only [Bool.false_eq_true, false_and, if_false]
    rw [if_neg hgo, add_zero]
    exact ih _ _ _

theorem State_ext (s t : State) (hb : ∀ i, s.buffer i = t.buffer i)
    (hp : s.position = t.position) (hs : s.BUFSIZE = t.BUFSIZE) : s = t := by
  cases s; cases t
  simp only [State.mk.injEq]
  exact ⟨funext hb, hp, hs⟩

/-- C7, counterexample.  The document `"\0\n"` is one newline-terminated line of two bytes with
zero bytes above `position`, and `delete(2,2)` addresses a line past it; the scan meets the NUL
at offset 0 and never leaves its loop, so `delete` does not return, with any fuel. -/
theorem delete_past_end_hangs_on_nul :
    (∀ l ∈ [[0, 10]], Line l) ∧ content (mkState [0, 10]) = [[0, 10]].flatten ∧
    (∀ i, (mkState [0, 10]).position ≤ i → (mkState [0, 10]).buffer i = 0) ∧
    ¬ ∃ fuel s', delete fuel (mkState [0, 10]) 2 2 = some s' := by
  refine ⟨by decide, by decide, mkState_zero _, ?_⟩
  rintro ⟨fuel, s', h⟩
  have hs := scanRange_stalls (mkState [0, 10]).buffer (mkState [0, 10]).position 2
    (if (2 : Int) > 2 then 2 else 2) 0 (by decide) (by decide) fuel 1 0 0
  simp only [delete, hs] at h
  exact Option.noConfusion h

/-- C7, amended: the lines are free of NUL.  The content of the buffer is `N ≥ 0`
newline-terminated lines of at most `LINESIZE - 1` bytes without NUL (the last may be blank),
the bytes from `position` upward are zero.  For `first > N` and any `last`, `delete(first, last)`
returns (with fuel `position + 2` or more) the state it was given: every buffer byte,
`position` and `BUFSIZE` are unchanged. -/
theorem delete_past_end_noop (s : State) (lines : List (List Nat)) (first last : Int)
    (fuel : Nat) (hpos : 0 ≤ s.position) (hdoc : content s = lines.flatten)
    (hline : ∀ l ∈ lines, Line l) (hnul : ∀ l ∈ lines, NulFree l)
    (hzero : ∀ i, s.position ≤ i → s.buffer i = 0)
    (hfirst : (lines.length : Int) < first) (hfuel : s.position.toNat + 2 ≤ fuel) :
    delete fuel s first last = some s := by
  have hp := position_of_content s _ hpos hdoc
  have hat := At_of_content s _ hdoc
  have hN := length_le_flatten _ hline
  have hlast : (lines.length : Int) < (if first > last then first else last) := by
    split_ifs <;> omega
  have hscan := scanRange_nomatch s.buffer s.position first (if first > last then first else last)
    (hzero _ (le_refl _)) lines fuel 1 0 0 0 hline hnul hat (by omega) (by omega) (by omega)
    (by omega)
  obtain ⟨s', hd, hpos', hbs, hbuf⟩ := delete_of_scan fuel s first last 0 0 hscan
    (le_refl _) hpos (by omega)
  rw [hd]
  congr 1
  apply State_ext
  · intro i
    rw [hbuf]
    split_ifs <;> first | rfl | omega | (congr 1; omega)
  · omega
  · exact hbs

theorem delete_past_end_noop_witness :
    delete 6 (mkState [97, 10, 98, 10]) 3 1 = some (mkState [97, 10, 98, 10]) :=
  delete_past_end_noop (mkState [97, 10, 98, 10]) [[97, 10], [98, 10]] 3 1 6
    (by decide) (by decide) (by decide) (by decide) (mkState_zero _) (by decide) (by decide)

/-! The function `insert` on a document of lines -/

/-- The copy loop of `insert` run from `n` until `position - n` reaches `startpos`, with the
destination `ptr = position + ls` not below the source. -/
theorem shiftUp_spec (ls position startpos : Int) (hls : 0 ≤ ls) :
    ∀ (d fuel : Nat) (b : Int → Nat) (n : Int), d + 1 ≤ fuel →
      position - n - d = startpos →
      ∃ b2, shiftUp (position + ls) position startpos fuel b n = some b2 ∧
        ∀ i, b2 i = if startpos + ls ≤ i ∧ i ≤ position + ls - n then b (i - ls) else b i := by
  intro d
  induction d with
  | zero =>
    intro fuel b n hf hpos
    obtain ⟨fuel, rfl⟩ : ∃ f, fuel = f + 1 := ⟨fuel - 1, by omega⟩
    have hex : position - n - 1 = startpos - 1 := by omega
    refine ⟨poke b (position + ls - n) (b (position - n)), by rw [shiftUp, if_pos hex], ?_⟩
    intro i
    rw [poke_apply]
    split_ifs <;> first | rfl | omega | (congr 1; omega)
  | succ d ih =>
    intro fuel b n hf hpos
    obtain ⟨fuel, rfl⟩ : ∃ f, fuel = f + 1 := ⟨fuel - 1, by omega⟩
    have hex : ¬ (position - n - 1 = startpos - 1) := by omega
    obtain ⟨b2, hb2, hspec⟩ := ih fuel (poke b (position + ls - n) (b (position - n))) (n + 1)
      (by omega) (by omega)
    refine ⟨b2, by rw [shiftUp, if_neg hex, hb2], ?_⟩
    intro i
    rw [hspec i, poke_apply, poke_apply]
    split_ifs <;> first | rfl | omega | (congr 1; omega)

theorem putLine_other (cs : List Nat) :
    ∀ (b : Int → Nat) (sp n i : Int), (i < sp + n ∨ sp + n + cs.length ≤ i) →
      putLine cs b sp n i = b i := by
  induction cs with
  | nil => intros; rfl
  | cons c cs ih =>
    intro b sp n i h
    rw [putLine, ih _ _ _ _ (by simp at h; omega), poke_apply, if_neg (by simp at h; omega)]

theorem putLine_At (cs : List Nat) :
    ∀ (b : Int → Nat) (sp n : Int), At (putLine cs b sp n) (sp + n) cs := by
  induction cs with
  | nil => intros; trivial
  | cons c cs ih =>
    intro b sp n
    refine ⟨?_, ?_⟩
    · rw [putLine, putLine_other _ _ _ _ _ (by omega), poke_apply, if_pos rfl]
    · have := ih (poke b (sp + n) c) sp (n + 1)
      rw [putLine, add_assoc]
      exact this

theorem takeWhile_NulFree (l : List Nat) (h : NulFree l) :
    l.takeWhile (fun c => decide (c ≠ 0)) = l := by
  rw [List.takeWhile_eq_self_iff]
  intro x hx
  have : x ≠ 0 := fun e => h (e ▸ hx)
  simpa using this

/-- The entry loop of `insert` on the lines `E` followed by a line that starts with `'.'`: the
lines go, in entry order, between the bytes `A` below `startpos` and the bytes `R` from
`startpos` on. -/
theorem insloop_spec (fuel : Nat) (t : List Nat) (rest : List (List Nat))
    (ht : t.head? = some 46) :
    ∀ (E : List (List Nat)) (s : State) (A R : List Nat),
      (∀ e ∈ E, NulFree e ∧ e ≠ [] ∧ e.head? ≠ some 46) →
      At s.buffer 0 (A ++ R) → s.position = ((A ++ R).length : Int) → R.length + 1 ≤ fuel →
      ∃ s', insloop fuel (E ++ t :: rest) s A.length = some s' ∧
        content s' = A ++ E.flatten ++ R ∧
        s'.position = s.position + (E.flatten.length : Int) ∧ s.BUFSIZE ≤ s'.BUFSIZE := by
  intro E
  induction E with
  | nil =>
    intro s A R _ hat hp _
    refine ⟨s, by simp [insloop, ht], ?_, by simp, le_refl _⟩
    simpa using content_of_At s _ hat hp
  | cons e E ih =>
    intro s A R hE hat hp hfuel
    obtain ⟨he0, hene, hedot⟩ := hE e (by simp)
    have hlen : 0 < e.length := List.length_pos.mpr hene
    have hls : ¬ ((e.takeWhile (fun c => decide (c ≠ 0))).length = 0) := by
      rw [takeWhile_NulFree e he0]; omega
    simp only [List.length_append, Nat.cast_add] at hp
    obtain ⟨b1, hb1, hspec⟩ := shiftUp_spec (e.length : Int) s.position (A.length : Int)
      (by omega) R.length fuel s.buffer 0 hfuel (by omega)
    rw [At_append] at hat
    have hat2 : At (putLine e b1 (A.length : Int) 0) 0 ((A ++ e) ++ R) := by
      rw [At_append, At_append]
      refine ⟨⟨?_, ?_⟩, ?_⟩
      · refine At_shift s.buffer _ A 0 0 ?_ hat.1
        intro j hj
        rw [putLine_other _ _ _ _ _ (by omega), hspec]
        split_ifs <;> first | rfl | omega
      · have := putLine_At e b1 (A.length : Int) 0
        simpa using this
      · refine At_shift s.buffer _ R (0 + (A.length : Int)) _ ?_ hat.2
        intro j hj
        rw [putLine_other _ _ _ _ _ (by simp only [List.length_append]; push_cast; omega), hspec]
        simp only [List.length_append]
        split_ifs <;> first | rfl | omega | (congr 1; push_cast; omega)
    obtain ⟨s', hs', hc, hpos', hbs⟩ := ih
      { buffer := putLine e b1 (A.length : Int) 0
        position := s.position + (e.length : Int)
        BUFSIZE := if s.position + (e.length : Int) > s.BUFSIZE - LINESIZE
          then s.BUFSIZE + BUFGROW else s.BUFSIZE }
      (A ++ e) R (fun x hx => hE x (List.mem_cons_of_mem _ hx)) hat2
      (by simp only [List.length_append]; push_cast; omega) hfuel
    refine ⟨s', ?_, ?_, ?_, ?_⟩
    · rw [List.cons_append, insloop, if_neg hedot, if_neg hls]
      simp only [takeWhile_NulFree e he0]
      rw [hb1]
      have e1 : (A.length : Int) + ((e.length : Int) - 1) + 1 = ((A ++ e).length : Nat) := by
        simp only [List.length_append]; push_cast; omega
      simp only [e1]
      exact hs'
    · rw [hc, List.flatten_cons]
      simp only [List.append_assoc]
    · rw [hpos', List.flatten_cons, List.length_append]
      push_cast
      show s.position + (e.length : Int) + _ = _
      omega
    · refine le_trans ?_ hbs
      show s.BUFSIZE ≤ (if _ then s.BUFSIZE + BUFGROW else s.BUFSIZE)
      have hg : (0 : Int) ≤ BUFGROW := by decide
      split_ifs
      · exact le_add_of_nonneg_right hg
      · exact le_refl _

/-- Inserting the lines `E` before the first line of the block `R ≠ []` of the document
`P ++ R`, when the last line of the document is not blank, or `R` is two lines or more, or the
document is one line: `insert` returns and the document is `P ++ E ++ R`. -/
theorem insert_block (s : State) (P R E : List (List Nat)) (last : Int) (t : List Nat)
    (rest : List (List Nat)) (fuel : Nat)
    (hpos : 0 ≤ s.position) (hdoc : content s = (P ++ R).flatten)
    (hline : ∀ l ∈ P ++ R, Line l) (hnul : ∀ l ∈ P ++ R, NulFree l)
    (hR : R ≠ [])
    (hlast : (P ++ R).getLast? ≠ some [10] ∨ 2 ≤ R.length ∨ (P ++ R).length = 1)
    (hE : ∀ e ∈ E, NulFree e ∧ e ≠ [] ∧ e.head? ≠ some 46) (ht : t.head? = some 46)
    (hfuel : s.position.toNat + 2 ≤ fuel) :
    ∃ s', insert fuel s (P.length + 1) last (E ++ t :: rest) = some s' ∧
      content s' = (P ++ E ++ R).flatten ∧
      s'.position = s.position + (E.flatten.length : Int) ∧ s.BUFSIZE ≤ s'.BUFSIZE := by
  have hp := position_of_content s _ hpos hdoc
  have hat := At_of_content s _ hdoc
  have hN := length_le_flatten _ hline
  have hne : P ++ R ≠ [] := by simp [hR]
  have hRl := List.length_pos.mpr hR
  have hscan := scanRange_visits s.buffer s.position ((P.length : Int) + 1)
    (if ((P.length : Int) + 1) > last then ((P.length : Int) + 1) else last)
    (P ++ R) fuel 1 0 0 0 hline hnul hne hat (by omega) (by omega)
  have hc1 : (P ++ R).getLast? ≠ some [10] ∨ P.length + 1 < (P ++ R).length ∨
      (P ++ R).length = 1 := by
    rcases hlast with h | h | h
    · exact Or.inl h
    · right; left; simp only [List.length_append]; omega
    · exact Or.inr (Or.inr h)
  rw [resolve_visited_start _ P.length (by simp only [List.length_append]; omega) hc1,
    List.take_left] at hscan
  rw [List.flatten_append] at hat hp
  obtain ⟨s', hs', hc, hpos', hbs⟩ := insloop_spec fuel t rest ht E s P.flatten R.flatten hE hat hp
    (by simp only [List.length_append] at hp; omega)
  refine ⟨s', ?_, ?_, hpos', hbs⟩
  · simp only [insert, hscan]
    exact hs'
  · rw [hc]
    simp only [List.flatten_append]

/-- C3, counterexample.  The document is `"a\nb\n"`; `insert(1,1)` is given the line `"x\0y\n"`
(four bytes with its newline, not beginning with `'.'`) and then `"."`.  `strlen` ends the line
at its NUL: one byte is inserted, and `insert` returns with `position` 5 and content `"xa\nb\n"`,
not with `position` 8 and the four bytes in front. -/
theorem insert_cuts_line_at_nul :
    (insert 20 (mkState [97, 10, 98, 10]) 1 1 [[120, 0, 121, 10], [46, 10]]).map
      (fun s => (content s, s.position)) = some ([120, 97, 10, 98, 10], 5) := by
  decide

/-- C3, amended: the entered lines are free of NUL.  The content of the buffer is the `N ≥ 1`
lines `lines` (newline-terminated, at most `LINESIZE - 1` bytes, no NUL), the last one not blank.
For `1 ≤ first ≤ N`, any `last`, and entered lines `E` (non-empty, no NUL, not beginning with
`'.'`) followed by a line that begins with `'.'`, `insert(first, last)` returns (with fuel
`position + 2` or more) and leaves as content the lines `1..first-1`, then `E` in entry order,
then the lines `first..N`; `position` has grown by the byte length of `E`. -/
theorem insert_before_line (s : State) (lines E : List (List Nat)) (first : Nat) (last : Int)
    (t : List Nat) (rest : List (List Nat)) (fuel : Nat)
    (hdoc : content s = lines.flatten)
    (hline : ∀ l ∈ lines, Line l) (hnul : ∀ l ∈ lines, NulFree l)
    (hlast : lines.getLast? ≠ some [10])
    (h1 : 1 ≤ first) (h2 : first ≤ lines.length)
    (hE : ∀ e ∈ E, NulFree e ∧ e ≠ [] ∧ e.head? ≠ some 46) (ht : t.head? = some 46)
    (hfuel : s.position.toNat + 2 ≤ fuel) :
    ∃ s', insert fuel s first last (E ++ t :: rest) = some s' ∧
      content s' = (lines.take (first - 1)).flatten ++ E.flatten ++
        (lines.drop (first - 1)).flatten ∧
      s'.position = s.position + (E.flatten.length : Int) := by
  have hpos := position_nonneg_of_lines s lines hdoc hline (by omega)
  have hsplit : lines.take (first - 1) ++ lines.drop (first - 1) = lines :=
    List.take_append_drop _ _
  have hR : lines.drop (first - 1) ≠ [] := by
    intro e
    have := List.drop_eq_nil_iff.mp e
    omega
  obtain ⟨s', hs', hc, hpos', _⟩ := insert_block s (lines.take (first - 1))
    (lines.drop (first - 1)) E last t rest fuel hpos (by rw [hsplit]; exact hdoc)
    (by rw [hsplit]; exact hline) (by rw [hsplit]; exact hnul) hR
    (by rw [hsplit]; exact Or.inl hlast) hE ht hfuel
  have e1 : (((lines.take (first - 1)).length : Nat) : Int) + 1 = (first : Int) := by
    rw [List.length_take]; omega
  rw [e1] at hs'
  refine ⟨s', hs', ?_, hpos'⟩
  rw [hc]
  simp only [List.flatten_append]

theorem insert_before_line_witness :
    ∃ s', insert 6 (mkState [97, 10, 98, 10]) 2 0 [[120, 10], [121, 10], [46, 10]] = some s' ∧
      content s' = [97, 10, 120, 10, 121, 10, 98, 10] ∧ s'.position = 8 :=
  insert_before_line (mkState [97, 10, 98, 10]) [[97, 10], [98, 10]] [[120, 10], [121, 10]]
    2 0 [46, 10] [] 6 (by decide) (by decide) (by decide) (by decide) (by decide)
    (by decide) (by decide) (by decide) (by decide)

/-- C4, counterexample, in three parts.  (1) The document `"a\n\n"` ends in a blank line;
`insert(2,2)` of `"x\n"` does not find line 2 and puts the line at offset 0, and `delete(2,2)`
then removes `"a\n"`: the content ends as `"x\n\n"`.  (2) The document `"\0\n"` has a NUL in its
line: the scan of `insert(1,1)` never returns.  (3) On `"a\nb\n"` the entered line `"x\0y\n"` is
cut at its NUL and joins the first line; `delete(1,1)` then removes `"xa\n"`, leaving `"b\n"`. -/
theorem insert_delete_not_inverse :
    ((insert 20 (mkState [97, 10, 10]) 2 2 [[120, 10], [46, 10]]).bind
      (fun s => delete 20 s 2 2)).map (fun s => (content s, s.position))
        = some ([120, 10, 10], 3) ∧
    (¬ ∃ fuel s', insert fuel (mkState [0, 10]) 1 1 [[120, 10], [46, 10]] = some s') ∧
    ((insert 20 (mkState [97, 10, 98, 10]) 1 1 [[120, 0, 121, 10], [46, 10]]).bind
      (fun s => delete 20 s 1 1)).map (fun s => (content s, s.position))
        = some ([98, 10], 2) := by
  refine ⟨by decide, ?_, by decide⟩
  rintro ⟨fuel, s', h⟩
  have hs := scanRange_stalls (mkState [0, 10]).buffer (mkState [0, 10]).position 1
    (if (1 : Int) > 1 then 1 else 1) 0 (by decide) (by decide) fuel 1 0 0
  simp only [insert, hs] at h
  exact Option.noConfusion h

/-- C4, amended: the lines of the buffer and the entered lines are free of NUL, and `first < N`
where the last line of the buffer is blank and `N ≥ 2`.  The content of the buffer is `N ≥ 1`
newline-terminated lines of at most `LINESIZE - 1` bytes, blank lines allowed.  For
`1 ≤ first ≤ N` and `k ≥ 1` entered lines `E` (newline-terminated, at most `LINESIZE - 1` bytes,
not beginning with `'.'`), `insert(first, first)` with `E` and then `delete(first, first+k-1)`
both return (with fuel `position + |E| + 2` or more) and leave `position` and the content
`[0, position)` as they were. -/
theorem insert_then_delete (s : State) (lines E : List (List Nat)) (first : Nat)
    (t : List Nat) (rest : List (List Nat)) (fuel : Nat)
    (hdoc : content s = lines.flatten)
    (hline : ∀ l ∈ lines, Line l) (hnul : ∀ l ∈ lines, NulFree l)
    (hfound : lines.getLast? ≠ some [10] ∨ first < lines.length ∨ lines.length = 1)
    (h1 : 1 ≤ first) (h2 : first ≤ lines.length) (hk : E ≠ [])
    (hE : ∀ e ∈ E, Line e ∧ NulFree e ∧ e.head? ≠ some 46) (ht : t.head? = some 46)
    (hfuel : s.position.toNat + E.flatten.length + 2 ≤ fuel) :
    ∃ s1 s2, insert fuel s first first (E ++ t :: rest) = some s1 ∧
      delete fuel s1 first ((first : Int) + E.length - 1) = some s2 ∧
      s2.position = s.position ∧ content s2 = content s := by
  have hpos := position_nonneg_of_lines s lines hdoc hline (by omega)
  have hsplit : lines.take (first - 1) ++ lines.drop (first - 1) = lines :=
    List.take_append_drop _ _
  have hR : lines.drop (first - 1) ≠ [] := by
    intro e
    have := List.drop_eq_nil_iff.mp e
    omega
  have hE2 : ∀ e ∈ E, NulFree e ∧ e ≠ [] ∧ e.head? ≠ some 46 := by
    intro e he
    obtain ⟨a, b, c⟩ := hE e he
    refine ⟨b, ?_, c⟩
    intro h0
    have := Line_length_pos e a
    rw [h0] at this
    simp at this
  have hfound2 : lines.getLast? ≠ some [10] ∨ 2 ≤ (lines.drop (first - 1)).length ∨
      lines.length = 1 := by
    rcases hfound with h | h | h
    · exact Or.inl h
    · right; left; rw [List.length_drop]; omega
    · exact Or.inr (Or.inr h)
  obtain ⟨s1, hs1, hc1, hpos1, _⟩ := insert_block s (lines.take (first - 1))
    (lines.drop (first - 1)) E first t rest fuel hpos (by rw [hsplit]; exact hdoc)
    (by rw [hsplit]; exact hline) (by rw [hsplit]; exact hnul) hR
    (by rw [hsplit]; exact hfound2) hE2 ht (by omega)
  have e1 : (((lines.take (first - 1)).length : Nat) : Int) + 1 = (first : Int) := by
    rw [List.length_take]; omega
  have hmem : ∀ l ∈ lines.take (first - 1) ++ E ++ lines.drop (first - 1),
      Line l ∧ NulFree l := by
    intro l hl
    simp only [List.mem_append] at hl
    rcases hl with (h | h) | h
    · exact ⟨hline l (List.mem_of_mem_take h), hnul l (List.mem_of_mem_take h)⟩
    · exact ⟨(hE l h).1, (hE l h).2.1⟩
    · exact ⟨hline l (List.mem_of_mem_drop h), hnul l (List.mem_of_mem_drop h)⟩
  obtain ⟨s2, hs2, hc2, hpos2, _, _⟩ := delete_block s1 (lines.take (first - 1)) E
    (lines.drop (first - 1)) fuel (by omega) hc1 (fun l hl => (hmem l hl).1)
    (fun l hl => (hmem l hl).2) hk (Or.inr (Or.inl hR)) (by omega)
  have e2 : (((lines.take (first - 1)).length : Nat) : Int) + (E.length : Int)
      = (first : Int) + E.length - 1 := by
    rw [List.length_take]; omega
  rw [e1] at hs1 hs2
  rw [e2] at hs2
  refine ⟨s1, s2, hs1, hs2, by omega, ?_⟩
  rw [hc2, hdoc, hsplit]

theorem insert_then_delete_witness :
    ∃ s1 s2, insert 12 (mkState [97, 10, 10, 98, 10, 10]) 2 2
        [[120, 10], [121, 10], [46, 10]] = some s1 ∧
      delete 12 s1 2 3 = some s2 ∧
      s2.position = 6 ∧ content s2 = [97, 10, 10, 98, 10, 10] :=
  insert_then_delete (mkState [97, 10, 10, 98, 10, 10]) [[97, 10], [10], [98, 10], [10]]
    [[120, 10], [121, 10]] 2 [46, 10] [] 12 (by decide) (by decide) (by decide) (by decide)
    (by decide) (by decide) (by decide) (by decide) (by decide) (by decide)

/-! The function `append` -/

theorem storeLine_spec (l : List Nat) (h0 : NulFree l) :
    ∀ (cnt : Nat) (b : Int → Nat) (pos : Int), cnt + l.length ≤ LINESIZE →
      (storeLine l cnt b pos).2 = pos + (l.length : Int) ∧
      At (storeLine l cnt b pos).1 pos l ∧
      ∀ i, (i < pos ∨ pos + (l.length : Int) ≤ i) → (storeLine l cnt b pos).1 i = b i := by
  induction l with
  | nil => intro cnt b pos _; exact ⟨by simp [storeLine], trivial, fun _ _ => rfl⟩
  | cons c cs ih =>
    intro cnt b pos hlen
    have c0 : c ≠ 0 := fun e => h0 (by simp [e])
    have hc : ¬ (cnt = LINESIZE) := by simp at hlen; omega
    obtain ⟨h1, h2, h3⟩ := ih (fun h => h0 (List.mem_cons_of_mem _ h)) (cnt + 1) (poke b pos c)
      (pos + 1) (by simp at hlen; omega)
    rw [storeLine, if_neg c0, if_neg hc]
    refine ⟨?_, ⟨?_, h2⟩, ?_⟩
    · rw [h1]; simp only [List.length_cons]; push_cast; omega
    · rw [h3 pos (by omega), poke_apply, if_pos rfl]
    · intro i hi
      rw [h3 i (by simp at hi; omega), poke_apply, if_neg (by simp at hi; omega)]

theorem storeLine_bounds (l : List Nat) :
    ∀ (cnt : Nat) (b : Int → Nat) (pos : Int),
      pos ≤ (storeLine l cnt b pos).2 ∧ (storeLine l cnt b pos).2 ≤ pos + (l.length : Int) := by
  induction l with
  | nil => intro cnt b pos; simp [storeLine]
  | cons c cs ih =>
    intro cnt b pos
    have := ih (cnt + 1) (poke b pos c) (pos + 1)
    rw [storeLine]
    simp only [List.length_cons]
    push_cast
    split_ifs <;> (try dsimp only) <;> omega

/-- One stored line: the content grows by the line, and the headroom of `LINESIZE` bytes above
`position` is there again afterwards. -/
theorem appendLine_spec (s : State) (C l : List Nat) (hpos : 0 ≤ s.position)
    (hdoc : content s = C) (h0 : NulFree l) (hlen : l.length ≤ LINESIZE - 1)
    (hroom : s.position ≤ s.BUFSIZE - LINESIZE) :
    content (appendLine s l) = C ++ l ∧
    (appendLine s l).position = s.position + (l.length : Int) ∧
    (appendLine s l).position ≤ (appendLine s l).BUFSIZE - LINESIZE := by
  have hp := position_of_content s _ hpos hdoc
  have hat := At_of_content s _ hdoc
  obtain ⟨h1, h2, h3⟩ := storeLine_spec l h0 0 s.buffer s.position
    (by simp only [LINESIZE] at hlen ⊢; omega)
  have hposn : (appendLine s l).position = s.position + (l.length : Int) := h1
  refine ⟨?_, hposn, ?_⟩
  · apply content_of_At
    · rw [At_append]
      constructor
      · refine At_shift s.buffer _ C 0 0 ?_ hat
        intro j hj
        exact h3 _ (by omega)
      · have e : (0 : Int) + (C.length : Int) = s.position := by omega
        rw [e]; exact h2
    · rw [hposn, List.length_append]; push_cast; omega
  · show (storeLine l 0 s.buffer s.position).2 ≤
      (if (storeLine l 0 s.buffer s.position).2 > s.BUFSIZE - LINESIZE
        then s.BUFSIZE + BUFGROW else s.BUFSIZE) - LINESIZE
    have hg : BUFGROW = 2048 := rfl
    have hL : LINESIZE = 132 := rfl
    rw [h1, hg]
    rw [hL] at hlen hroom ⊢
    split_ifs <;> omega

theorem init_room (junk : Int → Nat) :
    (init junk).position ≤ (init junk).BUFSIZE - LINESIZE := by
  show (0 : Int) ≤ CBUFSIZE - LINESIZE
  decide

/-- The entry loop of `append` on the lines `lines` followed by a line that starts with `'.'`. -/
theorem append_spec (t : List Nat) (rest : List (List Nat)) (ht : t.head? = some 46) :
    ∀ (lines : List (List Nat)) (s : State) (C : List Nat),
      (∀ l ∈ lines, NulFree l ∧ l.length ≤ LINESIZE - 1 ∧ l.head? ≠ some 46) →
      0 ≤ s.position → content s = C → s.position ≤ s.BUFSIZE - LINESIZE →
      ∃ s', append s (lines ++ t :: rest) = some s' ∧
        content s' = C ++ lines.flatten ∧
        s'.position = s.position + (lines.flatten.length : Int) ∧
        s'.position ≤ s'.BUFSIZE - LINESIZE := by
  intro lines
  induction lines with
  | nil =>
    intro s C _ _ hdoc hroom
    exact ⟨s, by simp [append, ht], by simpa using hdoc, by simp, hroom⟩
  | cons l lines ih =>
    intro s C hl hpos hdoc hroom
    obtain ⟨h0, hlen, hdot⟩ := hl l (by simp)
    obtain ⟨a1, a2, a3⟩ := appendLine_spec s C l hpos hdoc h0 hlen hroom
    obtain ⟨s', hs', hc, hp, hr⟩ := ih (appendLine s l) (C ++ l)
      (fun x hx => hl x (List.mem_cons_of_mem _ hx)) (by omega) a1 a3
    refine ⟨s', ?_, ?_, ?_, hr⟩
    · rw [List.cons_append, append, if_neg hdot]; exact hs'
    · rw [hc, List.flatten_cons, List.append_assoc]
    · rw [hp, a2, List.flatten_cons, List.length_append]; push_cast; omega

/-- C9, counterexample.  The line `"a\0b\n"` (four bytes, not beginning with `'.'`) is appended
to the empty buffer and the loop is left with `"."`.  The copy loop of `append` stops at the NUL:
`position` is 1, not 4, and the content is `"a"`. -/
theorem append_cuts_line_at_nul :
    (append (init (fun _ => 0)) [[97, 0, 98, 10], [46, 10]]).map
      (fun s => (content s, s.position)) = some ([97], 1) := by
  decide

/-- C9, amended: the lines are free of NUL.  For every sequence of lines (each 1 to
`LINESIZE - 1` bytes, no NUL, not beginning with `'.'`) entered into `append` on the initial
empty buffer of capacity `CBUFSIZE` and followed by a line that begins with `'.'`, whatever
lies outside the first allocation and whatever the total size: `append` returns, the final
`position` is the sum of the line lengths, the content `[0, position)` is the concatenation of
the lines in entry order, and `BUFSIZE` has grown so that `position ≤ BUFSIZE - LINESIZE`. -/
theorem append_preserves_content (junk : Int → Nat) (lines : List (List Nat)) (t : List Nat)
    (rest : List (List Nat))
    (hl : ∀ l ∈ lines, 1 ≤ l.length ∧ l.length ≤ LINESIZE - 1 ∧ NulFree l ∧ l.head? ≠ some 46)
    (ht : t.head? = some 46) :
    ∃ s', append (init junk) (lines ++ t :: rest) = some s' ∧
      s'.position = (lines.flatten.length : Int) ∧ content s' = lines.flatten ∧
      s'.position ≤ s'.BUFSIZE - LINESIZE := by
  obtain ⟨s', hs', hc, hp, hr⟩ := append_spec t rest ht lines (init junk) []
    (fun l h => ⟨(hl l h).2.2.1, (hl l h).2.1, (hl l h).2.2.2⟩) (le_refl _) rfl (init_room junk)
  refine ⟨s', hs', ?_, by simpa using hc, hr⟩
  rw [hp]
  show (0 : Int) + _ = _
  omega

theorem append_preserves_content_witness :
    ∃ s', append (init (fun _ => 7)) [[97, 10], [10], [98, 99, 10], [46, 10]] = some s' ∧
      s'.position = 6 ∧ content s' = [97, 10, 10, 98, 99, 10] ∧
      s'.position ≤ s'.BUFSIZE - LINESIZE :=
  append_preserves_content (fun _ => 7) [[97, 10], [10], [98, 99, 10]] [46, 10] []
    (by decide) (by decide)

/-! The headroom above `position` -/

/-- The growth test `if (p > BUFSIZE-LINESIZE) BUFSIZE += BUFGROW` restores the headroom when
`p` is at most `BUFGROW` above a position that had it. -/
theorem grow_room (pos bs p : Int) (h : pos ≤ bs - LINESIZE) (hp : p ≤ pos + BUFGROW) :
    p ≤ (if p > bs - LINESIZE then bs + BUFGROW else bs) - LINESIZE := by
  have hg : BUFGROW = 2048 := rfl
  have hL : LINESIZE = 132 := rfl
  rw [hg] at hp ⊢
  rw [hL] at h ⊢
  split_ifs <;> omega

theorem grow_cases (bs p : Int) :
    (if p > bs - LINESIZE then bs + BUFGROW else bs) = bs ∨
    (if p > bs - LINESIZE then bs + BUFGROW else bs) = bs + BUFGROW := by
  split_ifs
  · exact Or.inr rfl
  · exact Or.inl rfl

/-- What one inserted line does to `position` and `BUFSIZE`. -/
theorem insloop_one (fuel : Nat) (l : List Nat) (s s' : State) (sp : Int)
    (h : insloop fuel [l, [46, 10]] s sp = some s') :
    s' = s ∨ ∃ ls : Int, 0 ≤ ls ∧ ls ≤ (l.length : Int) ∧ s'.position = s.position + ls ∧
      s'.BUFSIZE = if s.position + ls > s.BUFSIZE - LINESIZE
        then s.BUFSIZE + BUFGROW else s.BUFSIZE := by
  rw [insloop] at h
  split_ifs at h with hdot hz
  · left
    exact (Option.some.inj h).symm
  · right
    refine ⟨((l.takeWhile (fun c => decide (c ≠ 0))).length : Int), by omega, ?_, ?_⟩
    · have hsub : List.Sublist (l.takeWhile (fun c => decide (c ≠ 0))) l :=
        List.takeWhile_sublist _
      have := hsub.length_le
      omega
    · cases hb : shiftUp (s.position + ((l.takeWhile (fun c => decide (c ≠ 0))).length : Int))
          s.position sp fuel s.buffer 0 with
      | none =>
        simp only [hb] at h
        exact Option.noConfusion h
      | some b1 =>
        simp only [hb, insloop, List.head?_cons, if_true] at h
        have := Option.some.inj h
        subst this
        exact ⟨rfl, rfl⟩

theorem step_room (s s' : State) (h : Step s s') (hroom : s.position ≤ s.BUFSIZE - LINESIZE)
    (hbs : CBUFSIZE ≤ s.BUFSIZE) : s'.position ≤ s'.BUFSIZE - LINESIZE := by
  have hg : BUFGROW = 2048 := rfl
  have hL : LINESIZE = 132 := rfl
  cases h with
  | appendLine _ l hlen _ =>
    have hb := storeLine_bounds l 0 s.buffer s.position
    exact grow_room s.position s.BUFSIZE (storeLine l 0 s.buffer s.position).2 hroom
      (by rw [hg]; rw [hL] at hlen; omega)
  | insertLine fuel _ first last l _ hlen hins =>
    simp only [insert] at hins
    cases hsc : scanRange s.buffer s.position first (if first > last then first else last)
        fuel 1 0 0 0 with
    | none =>
      simp only [hsc] at hins
      exact Option.noConfusion hins
    | some r =>
      simp only [hsc] at hins
      rcases insloop_one fuel l s s' r.1 hins with e | ⟨ls, h0, h1, h2, h3⟩
      · rw [e]; exact hroom
      · rw [h2, h3]
        exact grow_room s.position s.BUFSIZE _ hroom (by rw [hg]; rw [hL] at hlen; omega)
  | loadByte _ ch =>
    exact grow_room s.position s.BUFSIZE (s.position + 1) hroom (by rw [hg]; omega)
  | clear _ =>
    show (0 : Int) ≤ s.BUFSIZE - LINESIZE
    have hc : CBUFSIZE = 8192 := rfl
    rw [hc] at hbs
    rw [hL]
    omega

theorem step_bufsize (s s' : State) (h : Step s s') :
    s'.BUFSIZE = s.BUFSIZE ∨ s'.BUFSIZE = s.BUFSIZE + BUFGROW := by
  cases h with
  | appendLine _ l _ _ => exact grow_cases s.BUFSIZE _
  | insertLine fuel _ first last l _ hlen hins =>
    simp only [insert] at hins
    cases hsc : scanRange s.buffer s.position first (if first > last then first else last)
        fuel 1 0 0 0 with
    | none =>
      simp only [hsc] at hins
      exact Option.noConfusion hins
    | some r =>
      simp only [hsc] at hins
      rcases insloop_one fuel l s s' r.1 hins with e | ⟨ls, _, _, _, h3⟩
      · rw [e]; exact Or.inl rfl
      · rw [h3]; exact grow_cases s.BUFSIZE _
  | loadByte _ ch => exact grow_cases s.BUFSIZE _
  | clear _ => exact Or.inl rfl

/-- C10. Headroom invariant.  Every state reached from the initial state (`BUFSIZE` 8192,
`position` 0, anything outside the allocation) by steps of the kinds `append` one line of at
most `LINESIZE - 1` bytes, `insert` one such line at any line number, load one file byte, and
clear, has `position ≤ BUFSIZE - LINESIZE` (and `BUFSIZE ≥ CBUFSIZE`); and every such step from
it leaves `BUFSIZE` as it is or adds `BUFGROW` to it, so `BUFSIZE` never decreases. -/
theorem headroom_invariant (junk : Int → Nat) (s : State) (h : Reachable junk s) :
    s.position ≤ s.BUFSIZE - LINESIZE ∧ CBUFSIZE ≤ s.BUFSIZE ∧
    ∀ s', Step s s' →
      s.BUFSIZE ≤ s'.BUFSIZE ∧ (s'.BUFSIZE = s.BUFSIZE ∨ s'.BUFSIZE = s.BUFSIZE + BUFGROW) := by
  have hstep : ∀ s s', Step s s' →
      s.BUFSIZE ≤ s'.BUFSIZE ∧ (s'.BUFSIZE = s.BUFSIZE ∨ s'.BUFSIZE = s.BUFSIZE + BUFGROW) := by
    intro s s' hs
    have hg : BUFGROW = 2048 := rfl
    have := step_bufsize s s' hs
    refine ⟨?_, this⟩
    rcases this with e | e <;> rw [e]
    rw [hg]; omega
  have hinv : s.position ≤ s.BUFSIZE - LINESIZE ∧ CBUFSIZE ≤ s.BUFSIZE := by
    induction h with
    | init => exact ⟨init_room junk, le_refl _⟩
    | step s s' _ hs ih =>
      exact ⟨step_room s s' hs ih.1 ih.2, le_trans ih.2 (hstep s s' hs).1⟩
  exact ⟨hinv.1, hinv.2, hstep s⟩

theorem headroom_invariant_witness :
    (loadByte (appendLine (init (fun _ => 0)) [97, 10]) 98).position ≤
      (loadByte (appendLine (init (fun _ => 0)) [97, 10]) 98).BUFSIZE - LINESIZE :=
  (headroom_invariant (fun _ => 0) (loadByte (appendLine (init (fun _ => 0)) [97, 10]) 98)
    (Reachable.step _ _ (Reachable.step _ _ Reachable.init
      (Step.appendLine _ [97, 10] (by decide) (by decide))) (Step.loadByte _ 98))).1

/-! The stop line of the entry loops -/

theorem appendLine_content (s : State) (C l : List Nat) (hpos : 0 ≤ s.position)
    (hdoc : content s = C) (h0 : NulFree l) (hlen : l.length ≤ LINESIZE - 1) :
    content (appendLine s l) = C ++ l ∧
    (appendLine s l).position = s.position + (l.length : Int) := by
  have hp := position_of_content s _ hpos hdoc
  have hat := At_of_content s _ hdoc
  obtain ⟨h1, h2, h3⟩ := storeLine_spec l h0 0 s.buffer s.position
    (by simp only [LINESIZE] at hlen ⊢; omega)
  have hposn : (appendLine s l).position = s.position + (l.length : Int) := h1
  refine ⟨?_, hposn⟩
  apply content_of_At
  · rw [At_append]
    constructor
    · refine At_shift s.buffer _ C 0 0 ?_ hat
      intro j hj
      exact h3 _ (by omega)
    · have e : (0 : Int) + (C.length : Int) = s.position := by omega
      rw [e]; exact h2
  · rw [hposn, List.length_append]; push_cast; omega

theorem append_content (t : List Nat) (rest : List (List Nat)) (ht : t.head? = some 46) :
    ∀ (lines : List (List Nat)) (s : State) (C : List Nat),
      (∀ l ∈ lines, NulFree l ∧ l.length ≤ LINESIZE - 1 ∧ l.head? ≠ some 46) →
      0 ≤ s.position → content s = C →
      ∃ s', append s (lines ++ t :: rest) = some s' ∧ content s' = C ++ lines.flatten := by
  intro lines
  induction lines with
  | nil =>
    intro s C _ _ hdoc
    exact ⟨s, by simp [append, ht], by simpa using hdoc⟩
  | cons l lines ih =>
    intro s C hl hpos hdoc
    obtain ⟨h0, hlen, hdot⟩ := hl l (by simp)
    obtain ⟨a1, a2⟩ := appendLine_content s C l hpos hdoc h0 hlen
    obtain ⟨s', hs', hc⟩ := ih (appendLine s l) (C ++ l)
      (fun x hx => hl x (List.mem_cons_of_mem _ hx)) (by omega) a1
    refine ⟨s', ?_, ?_⟩
    · rw [List.cons_append, append, if_neg hdot]; exact hs'
    · rw [hc, List.flatten_cons, List.append_assoc]

theorem append_without_stop :
    ∀ (input : List (List Nat)) (s : State), (∀ l ∈ input, l.head? ≠ some 46) →
      append s input = none := by
  intro input
  induction input with
  | nil => intros; rfl
  | cons l input ih =>
    intro s h
    rw [append, if_neg (h l (by simp))]
    exact ih _ (fun x hx => h x (List.mem_cons_of_mem _ hx))

theorem insloop_without_stop (fuel : Nat) :
    ∀ (input : List (List Nat)) (s : State) (sp : Int), (∀ l ∈ input, l.head? ≠ some 46) →
      insloop fuel input s sp = none := by
  intro input
  induction input with
  | nil => intros; rfl
  | cons l input ih =>
    intro s sp h
    rw [insloop, if_neg (h l (by simp))]
    split_ifs
    · rfl
    · cases hsu : shiftUp (s.position + ((l.takeWhile (fun c => decide (c ≠ 0))).length : Int))
          s.position sp fuel s.buffer 0 with
      | none => simp only [hsu]
      | some b1 =>
        simp only [hsu]
        exact ih _ _ (fun x hx => h x (List.mem_cons_of_mem _ hx))

/-- C11, counterexample, in three parts.  (1) `append` on the empty buffer gets the lines
`".a\n"`, `"x\n"`, `".\n"`: the loop is left at `".a\n"`, which is not a line of `'.'` alone,
and `"x\n"`, entered before the first such line, is not stored: the buffer stays empty.
(2) `insert(1,1)` on the document `"a\n"` with the same lines leaves the document as it was.
(3) `append` of `"p\0q\n"` and then `".\n"` stores one byte of the line. -/
theorem entry_loop_stops_at_leading_dot :
    (append (init (fun _ => 0)) [[46, 97, 10], [120, 10], [46, 10]]).map
      (fun s => (content s, s.position)) = some ([], 0) ∧
    (insert 20 (mkState [97, 10]) 1 1 [[46, 97, 10], [120, 10], [46, 10]]).map
      (fun s => (content s, s.position)) = some ([97, 10], 2) ∧
    (append (init (fun _ => 0)) [[112, 0, 113, 10], [46, 10]]).map
      (fun s => (content s, s.position)) = some ([112], 1) := by
  refine ⟨by decide, by decide, by decide⟩

/-- C11, amended: the stop line is the first line that begins with `'.'`, and the lines before
it are free of NUL.  In a state with `position ≥ 0`, let the input be the lines `E` (each 1 to
`LINESIZE - 1` bytes, no NUL, not beginning with `'.'`), then a line `t` that begins with `'.'`,
then anything.  The entry loop of `append` returns with the content followed by the lines `E` in
entry order; the entry loop of `insert` for an insertion offset `startpos ≤ position` returns
(with fuel `position + 1` or more) with the lines `E` in entry order at that offset; nothing
behind `t` matters.  And on an input without a line that begins with `'.'` neither loop
returns. -/
theorem entry_loop_stops_at_first_dot_line (s : State) (E : List (List Nat)) (t : List Nat)
    (rest : List (List Nat)) (startpos fuel : Nat) (hpos : 0 ≤ s.position)
    (hE : ∀ e ∈ E, 1 ≤ e.length ∧ e.length ≤ LINESIZE - 1 ∧ NulFree e ∧ e.head? ≠ some 46)
    (ht : t.head? = some 46) (hsp : (startpos : Int) ≤ s.position)
    (hfuel : s.position.toNat + 1 ≤ fuel) :
    (∃ s', append s (E ++ t :: rest) = some s' ∧ content s' = content s ++ E.flatten) ∧
    (∃ s', insloop fuel (E ++ t :: rest) s startpos = some s' ∧
      content s' = (content s).take startpos ++ E.flatten ++ (content s).drop startpos) ∧
    (∀ input : List (List Nat), (∀ l ∈ input, l.head? ≠ some 46) →
      append s input = none ∧ insloop fuel input s startpos = none) := by
  refine ⟨?_, ?_, ?_⟩
  · exact append_content t rest ht E s (content s)
      (fun e he => ⟨(hE e he).2.2.1, (hE e he).2.1, (hE e he).2.2.2⟩) hpos rfl
  · have hlen := content_length s
    have hA : ((content s).take startpos).length = startpos := by
      rw [List.length_take]; omega
    have hsplit : (content s).take startpos ++ (content s).drop startpos = content s :=
      List.take_append_drop _ _
    have hR : ((content s).drop startpos).length ≤ s.position.toNat := by
      rw [List.length_drop]; omega
    have := insloop_spec fuel t rest ht E s ((content s).take startpos)
      ((content s).drop startpos)
      (fun e he => ⟨(hE e he).2.2.1, fun h0 => by
        have := (hE e he).1
        rw [h0] at this
        simp at this, (hE e he).2.2.2⟩)
      (by rw [hsplit]; exact At_of_content s _ rfl) (by rw [hsplit]; omega) (by omega)
    rw [hA] at this
    obtain ⟨s', h1, h2, _⟩ := this
    exact ⟨s', h1, h2⟩
  · intro input h
    exact ⟨append_without_stop input s h, insloop_without_stop fuel input s _ h⟩

theorem entry_loop_stops_at_first_dot_line_witness :
    (∃ s', append (mkState [97, 10]) ([[120, 10], [121, 10]] ++ [46, 46, 10] :: [[122, 10]])
        = some s' ∧ content s' = content (mkState [97, 10]) ++ [[120, 10], [121, 10]].flatten) ∧
    (∃ s', insloop 3 ([[120, 10], [121, 10]] ++ [46, 46, 10] :: [[122, 10]])
        (mkState [97, 10]) (1 : Nat) = some s' ∧
      content s' = (content (mkState [97, 10])).take 1 ++ [[120, 10], [121, 10]].flatten ++
        (content (mkState [97, 10])).drop 1) ∧
    (∀ input : List (List Nat), (∀ l ∈ input, l.head? ≠ some 46) →
      append (mkState [97, 10]) input = none ∧
        insloop 3 input (mkState [97, 10]) (1 : Nat) = none) :=
  entry_loop_stops_at_first_dot_line (mkState [97, 10]) [[120, 10], [121, 10]] [46, 46, 10]
    [[122, 10]] 1 3 (by decide) (by decide) (by decide) (by decide) (by decide)

/-! Range normalisation -/

/-- C13. Range normalisation.  For every state and all `first > last`, with the same fuel,
`lineprint(first, last)` returns what `lineprint(first, first)` returns, output and warnings, and
`delete(first, last)` returns the state that `delete(first, first)` returns; where one does not
return, the other does not either. -/
theorem range_normalization (fuel : Nat) (s : State) (first last : Int) (over : List Nat)
    (h : first > last) :
    lineprint fuel s first last over = lineprint fuel s first first over ∧
    delete fuel s first last = delete fuel s first first := by
  have h2 : ¬ (first > first) := lt_irrefl _
  constructor
  · simp only [lineprint, if_pos h, if_neg h2]
  · simp only [delete, if_pos h, if_neg h2]

theorem range_normalization_witness :
    lineprint 9 (mkState [97, 10, 98, 10, 99, 10]) 3 2 [] =
      lineprint 9 (mkState [97, 10, 98, 10, 99, 10]) 3 3 [] ∧
    delete 9 (mkState [97, 10, 98, 10, 99, 10]) 3 2 =
      delete 9 (mkState [97, 10, 98, 10, 99, 10]) 3 3 :=
  range_normalization 9 (mkState [97, 10, 98, 10, 99, 10]) 3 2 [] (by decide)

/-! Saving and loading -/

theorem loadByte_content (s : State) (C : List Nat) (ch : Nat) (hpos : 0 ≤ s.position)
    (hdoc : content s = C) :
    content (loadByte s ch) = C ++ [ch] ∧ (loadByte s ch).position = s.position + 1 ∧
    s.BUFSIZE ≤ (loadByte s ch).BUFSIZE := by
  have hp := position_of_content s _ hpos hdoc
  have hat := At_of_content s _ hdoc
  refine ⟨?_, rfl, ?_⟩
  · apply content_of_At
    · rw [At_append]
      constructor
      · refine At_shift s.buffer _ C 0 0 ?_ hat
        intro j hj
        show poke s.buffer s.position ch _ = _
        rw [poke_apply, if_neg (by omega)]
      · refine ⟨?_, trivial⟩
        show poke s.buffer s.position ch _ = _
        rw [poke_apply, if_pos (by omega)]
    · show s.position + 1 = _
      rw [List.length_append]; push_cast; simp only [List.length_singleton]; omega
  · show s.BUFSIZE ≤ (if _ then s.BUFSIZE + BUFGROW else s.BUFSIZE)
    have hg : (0 : Int) ≤ BUFGROW := by decide
    split_ifs
    · exact le_add_of_nonneg_right hg
    · exact le_refl _

theorem loadfile_content :
    ∀ (file : List Nat) (s : State) (C : List Nat), 0 ≤ s.position → content s = C →
      content (loadfile s file) = C ++ file ∧
      (loadfile s file).position = s.position + (file.length : Int) ∧
      s.BUFSIZE ≤ (loadfile s file).BUFSIZE := by
  intro file
  induction file with
  | nil => intro s C _ hdoc; exact ⟨by simpa [loadfile] using hdoc, by simp [loadfile], le_refl _⟩
  | cons ch file ih =>
    intro s C hpos hdoc
    obtain ⟨a1, a2, a3⟩ := loadByte_content s C ch hpos hdoc
    obtain ⟨b1, b2, b3⟩ := ih (loadByte s ch) (C ++ [ch]) (by omega) a1
    have e : loadfile s (ch :: file) = loadfile (loadByte s ch) file := rfl
    rw [e]
    refine ⟨by rw [b1]; simp, ?_, le_trans a3 b3⟩
    rw [b2, a2]; simp only [List.length_cons]; push_cast; omega

/-- C15. Save/load round trip.  For every state with `position ≥ 0`: the bytes that the command
`w` writes, loaded by `loadfile` into the buffer cleared by the command `n`, give the same
`position` and the same content `[0, position)`, whatever the size; `BUFSIZE` is not less than
before. -/
theorem save_load_round_trip (s : State) (hpos : 0 ≤ s.position) :
    (loadfile (clear s) (save s)).position = s.position ∧
    content (loadfile (clear s) (save s)) = content s ∧
    s.BUFSIZE ≤ (loadfile (clear s) (save s)).BUFSIZE := by
  have hc : content (clear s) = [] := rfl
  obtain ⟨h1, h2, h3⟩ := loadfile_content (save s) (clear s) [] (le_refl _) hc
  have hlen : (save s).length = s.position.toNat := by simp [save]
  refine ⟨?_, ?_, h3⟩
  · rw [h2, hlen]
    show (0 : Int) + _ = _
    omega
  · rw [h1]
    rfl

theorem save_load_round_trip_witness :
    (loadfile (clear (mkState [97, 0, 10, 255, 98])) (save (mkState [97, 0, 10, 255, 98]))).position
      = 5 ∧
    content (loadfile (clear (mkState [97, 0, 10, 255, 98])) (save (mkState [97, 0, 10, 255, 98])))
      = [97, 0, 10, 255, 98] ∧
    (8192 : Int) ≤
      (loadfile (clear (mkState [97, 0, 10, 255, 98])) (save (mkState [97, 0, 10, 255, 98]))).BUFSIZE :=
  save_load_round_trip (mkState [97, 0, 10, 255, 98]) (by decide)

/-! The forced line boundary -/

set_option maxRecDepth 1000000 in
/-- C17. The document is a run of 132 bytes `'a'`, then `"\n"`, then `"b\n"` (`position` 135).
`lineprint(1,9)` ends the run at offset 132, counts it as line 1, and shows the blank line 2 at
offset 132 and `"b\n"` as line 3.  `search("b")` (with `subline[LINESIZE]` zero) adds `n+1 = 133`
to `pos` after the run: it never reads offset 132, and shows `"b\n"` as line 2. -/
theorem search_skips_byte_after_forced_boundary :
    lineprint 20 (mkState (List.replicate 132 97 ++ [10, 98, 10])) 1 9 [] =
      some ([48, 48, 50, 93, 32, 10, 48, 48, 51, 93, 32, 98, 10], [1]) ∧
    search 20 (mkState (List.replicate 132 97 ++ [10, 98, 10])) [98] [] =
      some ([48, 48, 50, 93, 32, 98, 10, 10], [1]) ∧
    (132 : Int) ∈ lineprintReads (mkState (List.replicate 132 97 ++ [10, 98, 10])).buffer 135 20 0 ∧
    (132 : Int) ∉ searchReads (mkState (List.replicate 132 97 ++ [10, 98, 10])).buffer 135 20 0 := by
  refine ⟨by decide, by decide, by decide, by decide⟩

/-! The readers `lineprint` and `search` on a document of lines -/

theorem searchLine_line (b : Int → Nat) (pos : Int) (body : List Nat) (h10 : 10 ∉ body) :
    ∀ (k : Nat) (n : Int), At b (pos + n) (body ++ [10]) → body.length + 1 ≤ k →
      searchLine b pos k n = (n + body.length, true) := by
  induction body with
  | nil =>
    intro k n hat hk
    obtain ⟨k, rfl⟩ : ∃ j, k = j + 1 := ⟨k - 1, by simp at hk; omega⟩
    have hb : b (pos + n) = 10 := hat.1
    simp [searchLine, hb]
  | cons c cs ih =>
    intro k n hat hk
    obtain ⟨k, rfl⟩ : ∃ j, k = j + 1 := ⟨k - 1, by simp at hk; omega⟩
    have hb : b (pos + n) = c := hat.1
    have c10 : c ≠ 10 := fun e => h10 (by simp [e])
    have hat2 : At b (pos + (n + 1)) (cs ++ [10]) := by
      have := hat.2
      rwa [add_assoc] at this
    rw [searchLine, hb, if_neg c10,
      ih (fun h => h10 (List.mem_cons_of_mem _ h)) k (n + 1) hat2 (by simp at hk ⊢; omega)]
    simp only [List.length_cons, Nat.cast_add, Nat.cast_one, Prod.mk.injEq, and_true]
    omega

/-- The inner loop of `search` on a well-formed line that stands at `pos`: it stops at the
newline. -/
theorem searchLine_of_Line (b : Int → Nat) (pos : Int) (l : List Nat) (hl : Line l)
    (hat : At b pos l) : searchLine b pos LINESIZE 0 = ((l.length : Int) - 1, true) := by
  obtain ⟨body, rfl, h10, hlen⟩ := Line_split l hl
  have := searchLine_line b pos body h10 LINESIZE 0 (by simpa using hat)
    (by simp only [LINESIZE] at hlen ⊢; omega)
  rw [this]
  simp

theorem render_cons (e : Int × List Nat) (es : List (Int × List Nat)) :
    render (e :: es) = fmt03 e.1 ++ [93, 32] ++ e.2 ++ render es := by
  simp [render]

theorem copied_eq (b : Int → Nat) (p : Int) (l : List Nat) (hat : At b p l) :
    (List.range ((l.length : Int)).toNat).map (fun (j : Nat) => b (p + (j : Int))) = l := by
  have := eq_range_of_At b p l hat
  simpa using this

/-- On a document of well-formed lines `lineprint` returns, having shown the visited lines whose
number is in the range, each with its number, in order; it warns about none. -/
theorem lineprintLoop_visits (b : Int → Nat) (position first last : Int) (over : List Nat) :
    ∀ (rest : List (List Nat)) (fuel : Nat) (linecnt ptr : Int) (out : List Nat × List Int),
      (∀ l ∈ rest, Line l) → (∀ l ∈ rest, NulFree l) → rest ≠ [] →
      At b ptr rest.flatten →
      ptr + rest.flatten.length = position → rest.length ≤ fuel →
      lineprintLoop b position first last over fuel linecnt ptr out =
        some (out.1 ++ render ((numbered (visited rest) linecnt).filter
          (fun e => decide (e.1 = first ∨ (e.1 ≥ first ∧ e.1 ≤ last)))), out.2) := by
  intro rest
  induction rest with
  | nil => intro _ _ _ _ _ _ hne; exact absurd rfl hne
  | cons l rest ih =>
    intro fuel linecnt ptr out hl h0 _ hat hpos hfuel
    obtain ⟨fuel, rfl⟩ : ∃ f, fuel = f + 1 := ⟨fuel - 1, by simp at hfuel; omega⟩
    rw [List.flatten_cons, At_append] at hat
    rw [List.flatten_cons, List.length_append] at hpos
    have hsl := scanLine_of_Line b ptr l (hl l (by simp)) (h0 l (by simp)) hat.1
    have hshort : ¬ ((l.length : Int) ≥ (LINESIZE : Nat)) := by
      have := (hl l (by simp)).1
      simp only [LINESIZE] at this ⊢
      omega
    rw [lineprintLoop, hsl]
    simp only [copied_eq b ptr l hat.1, if_neg hshort, true_and]
    by_cases hr : rest = []
    · subst hr
      have hstop : ¬ (ptr + (l.length : Int) < position - 1) := by
        simp at hpos; omega
      rw [if_neg hstop]
      by_cases hs : linecnt = first ∨ (linecnt ≥ first ∧ linecnt ≤ last)
      · simp [visited, numbered, List.filter, hs, render_cons, render]
      · simp [visited, numbered, List.filter, hs, render]
    · by_cases hb : rest = [[10]]
      · subst hb
        have hstop : ¬ (ptr + (l.length : Int) < position - 1) := by
          simp at hpos; omega
        rw [if_neg hstop]
        by_cases hs : linecnt = first ∨ (linecnt ≥ first ∧ linecnt ≤ last)
        · simp [visited, numbered, List.filter, hs, render_cons, render]
        · simp [visited, numbered, List.filter, hs, render]
      · have h2 := flatten_length_two rest hr hb (fun x hx => hl x (List.mem_cons_of_mem _ hx))
        have hgo : ptr + (l.length : Int) < position - 1 := by
          push_cast at hpos; omega
        rw [if_pos hgo, ih fuel (linecnt + 1) (ptr + l.length) _
          (fun x hx => hl x (List.mem_cons_of_mem _ hx))
          (fun x hx => h0 x (List.mem_cons_of_mem _ hx)) hr hat.2
          (by push_cast at hpos; omega) (by simp at hfuel; omega)]
        by_cases hs : linecnt = first ∨ (linecnt ≥ first ∧ linecnt ≤ last)
        · simp [visited, hb, numbered, List.filter, hs, render_cons]
        · simp [visited, hb, numbered, List.filter, hs]

theorem render_filter_cons (P : Int × List Nat → Prop) [DecidablePred P] (o : List Nat)
    (e : Int × List Nat) (es : List (Int × List Nat)) :
    o ++ render (List.filter (fun x => decide (P x)) (e :: es)) =
      (if P e then o ++ (fmt03 e.1 ++ [93, 32] ++ e.2) else o) ++
        render (List.filter (fun x => decide (P x)) es) := by
  by_cases h : P e
  · rw [List.filter_cons_of_pos (by simpa using h), if_pos h, render_cons]
    simp only [List.append_assoc]
  · rw [List.filter_cons_of_neg (by simpa using h), if_neg h]

/-- On a document of well-formed lines `search` returns, having shown the visited lines in
which the substring occurs, each with its number, in order, and then a newline. -/
theorem searchLoop_visits (b : Int → Nat) (position : Int) (sub over : List Nat) :
    ∀ (rest : List (List Nat)) (fuel : Nat) (linenum pos : Int) (out : List Nat × List Int),
      (∀ l ∈ rest, Line l) → (∀ l ∈ rest, NulFree l) → rest ≠ [] →
      At b pos rest.flatten →
      pos + rest.flatten.length = position → rest.length ≤ fuel →
      searchLoop b position sub over fuel linenum pos out =
        some (out.1 ++ render ((numbered (visited rest) linenum).filter
          (fun e => decide (List.IsInfix (sub.takeWhile (fun c => decide (c ≠ 0))) e.2)))
            ++ [10], out.2) := by
  intro rest
  induction rest with
  | nil => intro _ _ _ _ _ _ hne; exact absurd rfl hne
  | cons l rest ih =>
    intro fuel linenum pos out hl h0 _ hat hpos hfuel
    obtain ⟨fuel, rfl⟩ : ∃ f, fuel = f + 1 := ⟨fuel - 1, by simp at hfuel; omega⟩
    rw [List.flatten_cons, At_append] at hat
    rw [List.flatten_cons, List.length_append] at hpos
    have hsl := searchLine_of_Line b pos l (hl l (by simp)) hat.1
    have hl1 := Line_length_pos l (hl l (by simp))
    have hshort : ¬ (l.length ≥ LINESIZE) := by
      have := (hl l (by simp)).1
      simp only [LINESIZE] at this ⊢
      omega
    have hcnt : (l.length : Int) - 1 + 1 = (l.length : Int) := by omega
    rw [searchLoop, hsl]
    simp only [if_true, hcnt, copied_eq b pos l hat.1, takeWhile_NulFree l (h0 l (by simp)),
      if_neg hshort]
    by_cases hr : rest = []
    · subst hr
      have hstop : ¬ (pos + (l.length : Int) < position - 1) := by
        simp at hpos; omega
      have hv : visited [l] = [l] := by simp [visited]
      rw [if_neg hstop, hv, numbered, numbered, render_filter_cons]
      dsimp only
      split_ifs <;> simp [render]
    · by_cases hb : rest = [[10]]
      · subst hb
        have hstop : ¬ (pos + (l.length : Int) < position - 1) := by
          simp at hpos; omega
        have hv : visited [l, [10]] = [l] := by simp [visited]
        rw [if_neg hstop, hv, numbered, numbered, render_filter_cons]
        dsimp only
        split_ifs <;> simp [render]
      · have h2 := flatten_length_two rest hr hb (fun x hx => hl x (List.mem_cons_of_mem _ hx))
        have hgo : pos + (l.length : Int) < position - 1 := by
          push_cast at hpos; omega
        have hv : visited (l :: rest) = l :: visited rest := by rw [visited, if_neg hb]
        rw [if_pos hgo, ih fuel (linenum + 1) (pos + l.length) _
          (fun x hx => hl x (List.mem_cons_of_mem _ hx))
          (fun x hx => h0 x (List.mem_cons_of_mem _ hx)) hr hat.2
          (by push_cast at hpos; omega) (by simp at hfuel; omega), hv, numbered,
          render_filter_cons]

theorem numbered_mem :
    ∀ (ls : List (List Nat)) (k : Int) (e : Int × List Nat), e ∈ numbered ls k →
      k ≤ e.1 ∧ e.1 < k + ls.length := by
  intro ls
  induction ls with
  | nil => intro k e h; simp [numbered] at h
  | cons l ls ih =>
    intro k e h
    rw [numbered, List.mem_cons] at h
    rcases h with h | h
    · subst h; simp
    · have := ih (k + 1) e h
      simp only [List.length_cons]; push_cast; omega

theorem visited_length_le : ∀ (doc : List (List Nat)), (visited doc).length ≤ doc.length := by
  intro doc
  induction doc with
  | nil => simp [visited]
  | cons l rest ih =>
    rw [visited]
    split_ifs with h
    · simp
    · simpa using ih

/-- Every line is visited when the last line is not blank or the document is one line. -/
theorem visited_eq_self (doc : List (List Nat)) (hne : doc ≠ [])
    (hc : doc.getLast? ≠ some [10] ∨ doc.length = 1) : visited doc = doc := by
  have hl := List.length_pos.mpr hne
  have hc2 : doc.getLast? ≠ some [10] ∨ (doc.length - 1) + 1 < doc.length ∨ doc.length = 1 := by
    rcases hc with h | h
    · exact Or.inl h
    · exact Or.inr (Or.inr h)
  obtain ⟨_, h2⟩ := visited_take doc (doc.length - 1) (by omega) hc2
  have e : doc.length - 1 + 1 = doc.length := by omega
  rw [e, List.take_length] at h2
  have := visited_length_le doc
  rw [List.take_of_length_le this] at h2
  exact h2

/-- C14. `search` agrees with `lineprint`.  The content of the buffer is `N ≥ 1`
newline-terminated lines of at most `LINESIZE - 1` bytes without NUL, and the substring has no
NUL.  Both functions return (with fuel `position + 1` or more) without a warning.
`lineprint(1, N)` writes one entry, number and text, for each visited line in order (`visited`:
every line, except a blank last line of a document of two or more lines); `search` writes, in
the same order and with the same numbers and texts, the entries of those among them whose text
contains the substring, and then its closing newline. -/
theorem search_agrees_with_lineprint (s : State) (lines : List (List Nat))
    (sub over1 over2 : List Nat) (fuel : Nat)
    (hdoc : content s = lines.flatten)
    (hline : ∀ l ∈ lines, Line l) (hnul : ∀ l ∈ lines, NulFree l) (hne : lines ≠ [])
    (hsub : NulFree sub) (hfuel : s.position.toNat + 1 ≤ fuel) :
    lineprint fuel s 1 lines.length over1 = some (render (numbered (visited lines) 1), []) ∧
    search fuel s sub over2 =
      some (render ((numbered (visited lines) 1).filter
        (fun e => decide (List.IsInfix sub e.2))) ++ [10], []) := by
  have hN := List.length_pos.mpr hne
  have hpos := position_nonneg_of_lines s lines hdoc hline (by omega)
  have hp := position_of_content s _ hpos hdoc
  have hat := At_of_content s _ hdoc
  have hlen := length_le_flatten _ hline
  constructor
  · have hnorm : (if (1 : Int) > (lines.length : Int) then (1 : Int) else (lines.length : Int))
        = (lines.length : Int) := by
      rw [if_neg (by omega)]
    have := lineprintLoop_visits s.buffer s.position 1 (lines.length : Int) over1 lines fuel 1 0
      ([], []) hline hnul hne hat (by omega) (by omega)
    simp only [lineprint, hnorm, this, List.nil_append]
    congr 2
    apply congrArg
    rw [List.filter_eq_self]
    intro e he
    have h1 := numbered_mem _ _ e he
    have h2 := visited_length_le lines
    simp only [decide_eq_true_eq]
    right
    omega
  · have := searchLoop_visits s.buffer s.position sub over2 lines fuel 1 0
      ([], []) hline hnul hne hat (by omega) (by omega)
    simp only [search, this, List.nil_append, takeWhile_NulFree sub hsub]

theorem search_agrees_with_lineprint_witness :
    lineprint 20 (mkState [97, 98, 10, 99, 10, 98, 98, 10, 10]) 1 4 [] =
      some (render [(1, [97, 98, 10]), (2, [99, 10]), (3, [98, 98, 10])], []) ∧
    search 20 (mkState [97, 98, 10, 99, 10, 98, 98, 10, 10]) [98] [] =
      some (render [(1, [97, 98, 10]), (3, [98, 98, 10])] ++ [10], []) :=
  search_agrees_with_lineprint (mkState [97, 98, 10, 99, 10, 98, 98, 10, 10])
    [[97, 98, 10], [99, 10], [98, 98, 10], [10]] [98] [] [] 20
    (by decide) (by decide) (by decide) (by decide) (by decide) (by decide)

/-- C16, counterexample, in three parts.  (1) On the empty buffer `search("")` reads 132 zero
bytes into `subline`, finds the empty substring in the empty string and writes the entry
`001] ` for a line that the document does not have.  (2) On `"a\n\n"` the blank line 2 is not
visited: one entry for two lines.  (3) On `"a\0b\n" "c\n"` the text of line 1 is shown as
`a`, cut at its NUL. -/
theorem search_empty_substring_fails :
    search 20 (mkState []) [] [] = some ([48, 48, 49, 93, 32, 10], [1]) ∧
    search 20 (mkState [97, 10, 10]) [] [] = some ([48, 48, 49, 93, 32, 97, 10, 10], []) ∧
    search 20 (mkState [97, 0, 98, 10, 99, 10]) [] [] =
      some ([48, 48, 49, 93, 32, 97, 48, 48, 50, 93, 32, 99, 10, 10], []) := by
  refine ⟨by decide, by decide, by decide⟩

/-- C16, amended: the buffer is not empty, its lines are free of NUL, and its last line is not
blank unless it is the only line.  The content of the buffer is `N ≥ 1` newline-terminated
lines of at most `LINESIZE - 1` bytes.  `search("")` returns (with fuel `position + 1` or more)
having written exactly one entry per line of the document, in document order, each the number
of the line (from 1) and its text, then the closing newline, and no warning. -/
theorem search_empty_substring (s : State) (lines : List (List Nat)) (over : List Nat)
    (fuel : Nat) (hdoc : content s = lines.flatten)
    (hline : ∀ l ∈ lines, Line l) (hnul : ∀ l ∈ lines, NulFree l) (hne : lines ≠ [])
    (hlast : lines.getLast? ≠ some [10] ∨ lines.length = 1)
    (hfuel : s.position.toNat + 1 ≤ fuel) :
    search fuel s [] over = some (render (numbered lines 1) ++ [10], []) := by
  have hN := List.length_pos.mpr hne
  have hpos := position_nonneg_of_lines s lines hdoc hline (by omega)
  have hp := position_of_content s _ hpos hdoc
  have hat := At_of_content s _ hdoc
  have hlen := length_le_flatten _ hline
  have := searchLoop_visits s.buffer s.position [] over lines fuel 1 0
    ([], []) hline hnul hne hat (by omega) (by omega)
  simp only [search, this, List.nil_append, visited_eq_self lines hne hlast]
  congr 3
  apply congrArg
  rw [List.filter_eq_self]
  intro e _
  simp only [List.takeWhile_nil, decide_eq_true_eq]
  exact List.nil_infix

theorem search_empty_substring_witness :
    search 20 (mkState [97, 98, 10, 10, 99, 10]) [] [7] =
      some (render [(1, [97, 98, 10]), (2, [10]), (3, [99, 10])] ++ [10], []) :=
  search_empty_substring (mkState [97, 98, 10, 10, 99, 10]) [[97, 98, 10], [10], [99, 10]] [7] 20
    (by decide) (by decide) (by decide) (by decide) (by decide) (by decide)

/-! Termination of the scans -/

theorem scanLine_facts (b : Int → Nat) (ptr : Int) :
    ∀ (k : Nat) (n : Int),
      n ≤ (scanLine b ptr k n).1 ∧ (scanLine b ptr k n).1 ≤ n + k ∧
      (∀ j, n ≤ j → j < (scanLine b ptr k n).1 → b (ptr + j) ≠ 0) ∧
      (1 ≤ k → b (ptr + n) ≠ 0 → n + 1 ≤ (scanLine b ptr k n).1) := by
  intro k
  induction k with
  | zero =>
    intro n
    refine ⟨by simp [scanLine], by simp [scanLine], ?_, by omega⟩
    intro j h1 h2
    simp only [scanLine] at h2
    omega
  | succ k ih =>
    intro n
    obtain ⟨a1, a2, a3, _⟩ := ih (n + 1)
    rw [scanLine]
    by_cases h0 : b (ptr + n) = 0
    · rw [if_pos h0]
      refine ⟨le_refl _, by push_cast; omega, ?_, fun _ h => absurd h0 h⟩
      intro j h1 h2
      simp only at h2
      omega
    · rw [if_neg h0]
      by_cases h10 : b (ptr + n) ≠ 10
      · rw [if_pos h10]
        refine ⟨by omega, by push_cast; omega, ?_, fun _ _ => a1⟩
        intro j h1 h2
        by_cases hj : j = n
        · rw [hj]; exact h0
        · exact a3 j (by omega) h2
      · rw [if_neg h10]
        refine ⟨by simp, by push_cast; simp, ?_, fun _ _ => by simp⟩
        intro j h1 h2
        have hj : j = n := by simp only at h2; omega
        rw [hj]; exact h0

/-- One round of a scan in a state whose content has no NUL and above which all is zero: the
inner loop stays inside the content, and when the scan goes on it has advanced. -/
theorem scan_round (b : Int → Nat) (position ptr : Int)
    (hnul : ∀ i, 0 ≤ i → i < position → b i ≠ 0) (hzero : ∀ i, position ≤ i → b i = 0)
    (hptr : 0 ≤ ptr) :
    0 ≤ (scanLine b ptr LINESIZE 0).1 ∧
    (ptr ≤ position → ptr + (scanLine b ptr LINESIZE 0).1 ≤ position) ∧
    (ptr + (scanLine b ptr LINESIZE 0).1 < position - 1 → 1 ≤ (scanLine b ptr LINESIZE 0).1) := by
  obtain ⟨a1, _, a3, a4⟩ := scanLine_facts b ptr LINESIZE 0
  refine ⟨a1, ?_, ?_⟩
  · intro hle
    by_contra hc
    have hn : b (ptr + ((scanLine b ptr LINESIZE 0).1 - 1)) ≠ 0 := a3 _ (by omega) (by omega)
    exact hn (hzero _ (by omega))
  · intro hlt
    have hb : b (ptr + 0) ≠ 0 := by
      rw [add_zero]; exact hnul ptr hptr (by omega)
    have := a4 (by decide) hb
    omega

theorem scanRange_terminates (b : Int → Nat) (position first last : Int)
    (hnul : ∀ i, 0 ≤ i → i < position → b i ≠ 0) (hzero : ∀ i, position ≤ i → b i = 0) :
    ∀ (d fuel : Nat) (linecnt ptr sp ep : Int), 0 ≤ ptr → ptr ≤ position →
      (position - ptr).toNat ≤ d → d + 1 ≤ fuel → 0 ≤ sp → sp ≤ position → 0 ≤ ep →
      ep ≤ position →
      ∃ r, scanRange b position first last fuel linecnt ptr sp ep = some r ∧
        0 ≤ r.1 ∧ r.1 ≤ position ∧ 0 ≤ r.2 ∧ r.2 ≤ position := by
  intro d
  induction d with
  | zero =>
    intro fuel linecnt ptr sp ep h0 h1 hd hf hs0 hs1 he0 he1
    obtain ⟨fuel, rfl⟩ : ∃ f, fuel = f + 1 := ⟨fuel - 1, by omega⟩
    obtain ⟨a1, a2, _⟩ := scan_round b position ptr hnul hzero h0
    have a2 := a2 h1
    have hstop : ptr + (scanLine b ptr LINESIZE 0).1 ≥ position - 1 := by omega
    rw [scanRange]
    simp only [hstop, if_true]
    refine ⟨_, rfl, ?_, ?_, ?_, ?_⟩ <;> (dsimp only; split_ifs <;> omega)
  | succ d ih =>
    intro fuel linecnt ptr sp ep h0 h1 hd hf hs0 hs1 he0 he1
    obtain ⟨fuel, rfl⟩ : ∃ f, fuel = f + 1 := ⟨fuel - 1, by omega⟩
    obtain ⟨a1, a2, a3⟩ := scan_round b position ptr hnul hzero h0
    have a2 := a2 h1
    rw [scanRange]
    by_cases hstop : ptr + (scanLine b ptr LINESIZE 0).1 ≥ position - 1
    · simp only [hstop, if_true]
      refine ⟨_, rfl, ?_, ?_, ?_, ?_⟩ <;> (dsimp only; split_ifs <;> omega)
    · simp only [hstop, if_false]
      have a3 := a3 (by omega)
      exact ih fuel _ _ _ _ (by omega) a2 (by omega) (by omega)
        (by split_ifs <;> omega) (by split_ifs <;> omega) (by split_ifs <;> omega)
        (by split_ifs <;> omega)

theorem lineprintLoop_terminates (b : Int → Nat) (position first last : Int) (over : List Nat)
    (hnul : ∀ i, 0 ≤ i → i < position → b i ≠ 0) (hzero : ∀ i, position ≤ i → b i = 0) :
    ∀ (d fuel : Nat) (linecnt ptr : Int) (out : List Nat × List Int), 0 ≤ ptr →
      ptr ≤ position → (position - ptr).toNat ≤ d → d + 1 ≤ fuel →
      ∃ r, lineprintLoop b position first last over fuel linecnt ptr out = some r := by
  intro d
  induction d with
  | zero =>
    intro fuel linecnt ptr out h0 h1 hd hf
    obtain ⟨fuel, rfl⟩ : ∃ f, fuel = f + 1 := ⟨fuel - 1, by omega⟩
    obtain ⟨a1, a2, _⟩ := scan_round b position ptr hnul hzero h0
    have a2 := a2 h1
    have hstop : ¬ (ptr + (scanLine b ptr LINESIZE 0).1 < position - 1) := by omega
    rw [lineprintLoop]
    simp only [hstop, if_false]
    exact ⟨_, rfl⟩
  | succ d ih =>
    intro fuel linecnt ptr out h0 h1 hd hf
    obtain ⟨fuel, rfl⟩ : ∃ f, fuel = f + 1 := ⟨fuel - 1, by omega⟩
    obtain ⟨a1, a2, a3⟩ := scan_round b position ptr hnul hzero h0
    have a2 := a2 h1
    rw [lineprintLoop]
    by_cases hgo : ptr + (scanLine b ptr LINESIZE 0).1 < position - 1
    · simp only [hgo, if_true]
      have a3 := a3 hgo
      exact ih fuel _ _ _ (by omega) a2 (by omega) (by omega)
    · simp only [hgo, if_false]
      exact ⟨_, rfl⟩

theorem shiftDown_terminates (startpos endpos position : Int) :
    ∀ (d fuel : Nat) (b : Int → Nat) (n : Int), 1 ≤ d → d ≤ fuel →
      n + d + endpos = position →
      ∃ b2, shiftDown startpos endpos position fuel b n = some b2 := by
  intro d
  induction d with
  | zero => intro fuel b n h; omega
  | succ d ih =>
    intro fuel b n _ hf hpos
    obtain ⟨fuel, rfl⟩ : ∃ f, fuel = f + 1 := ⟨fuel - 1, by omega⟩
    rw [shiftDown]
    by_cases hex : n + 1 + endpos = position
    · exact ⟨_, by rw [if_pos hex]⟩
    · rw [if_neg hex]
      exact ih fuel _ (n + 1) (by omega) (by omega) (by omega)

/-- C18. Termination of the line scan.  In every state with `position ≥ 0`, no NUL byte in
`[0, position)` and zero bytes from `position` upward, for all `first`, `last`, with fuel
`position + 2` or more: `lineprint` returns; the scan of `delete` and `insert` returns, with its
resolved end offset not above `position`; `delete` returns, its copy loop included; `insert`
returns when the first line it reads stops the entry; and a round of the scan after which the
scan goes on has advanced the offset by at least one byte. -/
theorem scans_terminate (s : State) (first last : Int) (over : List Nat) (fuel : Nat)
    (hpos : 0 ≤ s.position) (hnul : ∀ i, 0 ≤ i → i < s.position → s.buffer i ≠ 0)
    (hzero : ∀ i, s.position ≤ i → s.buffer i = 0) (hfuel : s.position.toNat + 2 ≤ fuel) :
    (∃ out, lineprint fuel s first last over = some out) ∧
    (∃ r, scanRange s.buffer s.position first (if first > last then first else last)
      fuel 1 0 0 0 = some r ∧ r.2 ≤ s.position) ∧
    (∃ s', delete fuel s first last = some s') ∧
    (∃ s', insert fuel s first last [[46, 10]] = some s') ∧
    (∀ ptr, 0 ≤ ptr →
      ptr + (scanLine s.buffer ptr LINESIZE 0).1 < s.position - 1 →
      1 ≤ (scanLine s.buffer ptr LINESIZE 0).1) := by
  obtain ⟨r, hr, r1, r2, r3, r4⟩ := scanRange_terminates s.buffer s.position first
    (if first > last then first else last) hnul hzero s.position.toNat fuel 1 0 0 0
    (le_refl _) hpos (by omega) (by omega) (le_refl _) hpos (le_refl _) hpos
  refine ⟨?_, ⟨r, hr, r4⟩, ?_, ?_, ?_⟩
  · exact lineprintLoop_terminates s.buffer s.position first _ over hnul hzero
      s.position.toNat fuel 1 0 ([], []) (le_refl _) hpos (by omega) (by omega)
  · obtain ⟨b2, hb2⟩ := shiftDown_terminates r.1 (r.2 - 1) s.position
      (s.position - r.2 + 1).toNat fuel (zeroFrom (r.2 - 1 - r.1 + 1).toNat s.buffer r.1) 0
      (by omega) (by omega) (by omega)
    have hd : (delete fuel s first last).isSome = true := by
      simp only [delete, hr, hb2]
      rfl
    exact Option.isSome_iff_exists.mp hd
  · exact ⟨s, by simp [insert, hr, insloop]⟩
  · intro ptr h0 hlt
    exact (scan_round s.buffer s.position ptr hnul hzero h0).2.2 hlt

theorem scans_terminate_witness :
    (∃ out, lineprint 8 (mkState [97, 98, 99, 10, 100, 101]) 2 1 [] = some out) ∧
    (∃ r, scanRange (mkState [97, 98, 99, 10, 100, 101]).buffer 6 2
      (if (2 : Int) > 1 then 2 else 1) 8 1 0 0 0 = some r ∧ r.2 ≤ 6) ∧
    (∃ s', delete 8 (mkState [97, 98, 99, 10, 100, 101]) 2 1 = some s') ∧
    (∃ s', insert 8 (mkState [97, 98, 99, 10, 100, 101]) 2 1 [[46, 10]] = some s') ∧
    (∀ ptr, 0 ≤ ptr →
      ptr + (scanLine (mkState [97, 98, 99, 10, 100, 101]).buffer ptr LINESIZE 0).1 < 6 - 1 →
      1 ≤ (scanLine (mkState [97, 98, 99, 10, 100, 101]).buffer ptr LINESIZE 0).1) :=
  scans_terminate (mkState [97, 98, 99, 10, 100, 101]) 2 1 [] 8 (by decide)
    (by
      intro i h0 h1
      have h1 : i < 6 := h1
      have hi : i = 0 ∨ i = 1 ∨ i = 2 ∨ i = 3 ∨ i = 4 ∨ i = 5 := by omega
      rcases hi with h | h | h | h | h | h <;> subst h <;> decide)
    (mkState_zero _) (by decide)

/-! Reads of the buffer -/

theorem scanLineReads_mem (b : Int → Nat) (ptr : Int) :
    ∀ (k : Nat) (n i : Int), i ∈ scanLineReads b ptr k n → ptr + n ≤ i ∧ i < ptr + n + k := by
  intro k
  induction k with
  | zero => intro n i h; simp [scanLineReads] at h
  | succ k ih =>
    intro n i h
    rw [scanLineReads, List.mem_cons] at h
    rcases h with h | h
    · subst h; push_cast; omega
    · split_ifs at h
      · simp at h
      · have := ih (n + 1) i h
        push_cast; omega
      · simp at h

theorem searchLine_facts (b : Int → Nat) (pos : Int) :
    ∀ (k : Nat) (n : Int), n ≤ (searchLine b pos k n).1 ∧ (searchLine b pos k n).1 ≤ n + k := by
  intro k
  induction k with
  | zero => intro n; simp [searchLine]
  | succ k ih =>
    intro n
    rw [searchLine]
    split_ifs
    · constructor
      · exact le_refl _
      · push_cast; omega
    · have := ih (n + 1)
      push_cast; omega

theorem searchLineReads_mem (b : Int → Nat) (pos : Int) :
    ∀ (k : Nat) (n i : Int), i ∈ searchLineReads b pos k n → pos + n ≤ i ∧ i < pos + n + k := by
  intro k
  induction k with
  | zero => intro n i h; simp [searchLineReads] at h
  | succ k ih =>
    intro n i h
    rw [searchLineReads, List.mem_cons] at h
    rcases h with h | h
    · subst h; push_cast; omega
    · split_ifs at h
      · simp at h
      · have := ih (n + 1) i h
        push_cast; omega

theorem lineprintReads_bound (b : Int → Nat) (position bufsize : Int)
    (hroom : position ≤ bufsize - LINESIZE) :
    ∀ (fuel : Nat) (ptr i : Int), 0 ≤ ptr → ptr + LINESIZE ≤ bufsize →
      i ∈ lineprintReads b position fuel ptr → 0 ≤ i ∧ i < bufsize := by
  intro fuel
  induction fuel with
  | zero => intro ptr i _ _ h; simp [lineprintReads] at h
  | succ fuel ih =>
    intro ptr i h0 h1 h
    rw [lineprintReads, List.mem_append] at h
    rcases h with h | h
    · have := scanLineReads_mem b ptr LINESIZE 0 i h
      omega
    · split_ifs at h with hgo
      · have a1 := (scanLine_facts b ptr LINESIZE 0).1
        exact ih _ i (by omega) (by omega) h
      · simp at h

theorem searchReads_bound (b : Int → Nat) (position bufsize : Int)
    (hroom : position ≤ bufsize - LINESIZE) :
    ∀ (fuel : Nat) (pos i : Int), 0 ≤ pos → pos + LINESIZE ≤ bufsize →
      i ∈ searchReads b position fuel pos → 0 ≤ i ∧ i < bufsize := by
  intro fuel
  induction fuel with
  | zero => intro pos i _ _ h; simp [searchReads] at h
  | succ fuel ih =>
    intro pos i h0 h1 h
    rw [searchReads, List.mem_append] at h
    rcases h with h | h
    · have := searchLineReads_mem b pos LINESIZE 0 i h
      omega
    · split_ifs at h with hgo
      · have a1 := (searchLine_facts b pos LINESIZE 0).1
        exact ih _ i (by omega) (by omega) h
      · simp at h

/-- C19. Reads stay inside the buffer.  In every state with `0 ≤ position ≤ BUFSIZE - LINESIZE`,
every offset at which `lineprint` reads the buffer and every offset at which `search` reads it,
in any number of rounds and so for all `first`, `last` and substrings, is at least 0 and less
than `BUFSIZE`. -/
theorem reads_inside_buffer (s : State) (fuel : Nat) (i : Int) (h0 : 0 ≤ s.position)
    (hroom : s.position ≤ s.BUFSIZE - LINESIZE) :
    (i ∈ lineprintReads s.buffer s.position fuel 0 → 0 ≤ i ∧ i < s.BUFSIZE) ∧
    (i ∈ searchReads s.buffer s.position fuel 0 → 0 ≤ i ∧ i < s.BUFSIZE) := by
  constructor
  · exact lineprintReads_bound s.buffer s.position s.BUFSIZE hroom fuel 0 i (le_refl _) (by omega)
  · exact searchReads_bound s.buffer s.position s.BUFSIZE hroom fuel 0 i (le_refl _) (by omega)

theorem reads_inside_buffer_witness :
    ((131 : Int) ∈ lineprintReads (init (fun _ => 7)).buffer 0 3 0 → (0 : Int) ≤ 131 ∧
      (131 : Int) < 8192) ∧
    ((131 : Int) ∈ searchReads (init (fun _ => 7)).buffer 0 3 0 → (0 : Int) ≤ 131 ∧
      (131 : Int) < 8192) :=
  reads_inside_buffer (init (fun _ => 7)) 3 131 (by decide) (by decide)

/-! The range command -/

theorem fgetsAux_line (more : List Nat) :
    ∀ (pre : List Nat) (k : Nat), 10 ∉ pre → pre.length + 1 ≤ k →
      fgetsAux k (pre ++ 10 :: more) = (pre ++ [10], more) := by
  intro pre
  induction pre with
  | nil =>
    intro k _ hk
    obtain ⟨k, rfl⟩ : ∃ j, k = j + 1 := ⟨k - 1, by simp at hk; omega⟩
    simp [fgetsAux]
  | cons x xs ih =>
    intro k hx hk
    obtain ⟨k, rfl⟩ : ∃ j, k = j + 1 := ⟨k - 1, by simp at hk; omega⟩
    have hx1 : x ≠ 10 := fun h => hx (by simp [h])
    have hx2 : 10 ∉ xs := fun h => hx (by simp [h])
    have := ih k hx2 (by simp at hk ⊢; omega)
    simp [fgetsAux, hx1, this]

theorem commandLine_of_short (pre more : List Nat) (c : Nat) (hpre : 10 ∉ pre)
    (hlen : pre.length + 2 ≤ LINESIZE - 1) :
    commandLine (pre ++ c :: 10 :: more) = pre ++ c :: (if c = 10 then [] else [10]) := by
  unfold commandLine
  by_cases hc : c = 10
  · subst hc
    rw [fgetsAux_line _ pre _ hpre (by omega)]
    simp
  · have e : pre ++ c :: 10 :: more = (pre ++ [c]) ++ 10 :: more := by simp
    rw [e, fgetsAux_line _ (pre ++ [c]) _ (by simp [hpre]; exact fun h => hc h.symm)
      (by simp; omega)]
    simp [hc]

theorem copyNumber_run ( bounded : Bool) (rest : List Nat)
    (hrest : isdigit (rest.headD 0) = false) :
    ∀ (ds : List Nat) (d n : Nat), (∀ x ∈ ds, isdigit x = true) →
      n + ds.length + 1 ≤ LINESIZE →
      copyNumber bounded (d :: ds ++ rest) n = (d :: ds, rest, n + ds.length + 1) := by
  intro ds
  induction ds with
  | nil =>
    intro d n _ hn
    have hb : ¬ (bounded = true ∧ n + 1 > LINESIZE) := by
      simp at hn; omega
    simp only [List.cons_append, List.nil_append]
    rw [copyNumber, if_neg hb, if_neg (by rw [hrest]; decide)]
    rfl
  | cons e es ih =>
    intro d n hds hn
    have hb : ¬ (bounded = true ∧ n + 1 > LINESIZE) := by
      simp at hn; omega
    have he : isdigit e = true := hds e (by simp)
    have := ih e (n + 1) (fun x hx => hds x (by simp [hx])) (by simp at hn ⊢; omega)
    simp only [List.cons_append] at this ⊢
    rw [copyNumber, if_neg hb]
    simp only [List.headD_cons, he, if_true, this]
    simp
    omega

theorem takeWhile_nonzero (cs : List Nat) (k : Nat) (h : ∀ x ∈ cs, x ≠ 0) :
    (cs ++ List.replicate k 0).takeWhile (fun c => decide (c ≠ 0)) = cs := by
  induction cs with
  | nil =>
    cases k with
    | zero => rfl
    | succ k => rfl
  | cons x xs ih =>
    have hx : x ≠ 0 := h x (by simp)
    rw [List.cons_append, List.takeWhile_cons, if_pos (by simpa using hx),
      ih (fun y hy => h y (by simp [hy]))]

theorem digit_store (tail cs : List Nat) (htail : tail = List.replicate 70 0)
    (hlen : cs.length ≤ 10) (hnz : ∀ x ∈ cs, x ≠ 0) :
    digitWrite (List.replicate 10 0 ++ tail) cs =
      some (cs ++ List.replicate (80 - cs.length) 0) ∧
    digitString (cs ++ List.replicate (80 - cs.length) 0) = some cs ∧
    (cs ++ List.replicate (80 - cs.length) 0).drop 10 = List.replicate 70 0 := by
  subst htail
  have e80 : List.replicate 10 0 ++ List.replicate 70 0 = List.replicate 80 (0 : Nat) := by
    rfl
  refine ⟨?_, ?_, ?_⟩
  · rw [e80, digitWrite, if_pos (by simp; omega), List.drop_replicate]
  · have hmem : 0 ∈ cs ++ List.replicate (80 - cs.length) 0 := by
      rw [List.mem_append]; right
      rw [List.mem_replicate]; exact ⟨by omega, rfl⟩
    rw [digitString, if_pos hmem, takeWhile_nonzero cs _ hnz]
  · rw [List.drop_append_eq_append_drop, List.drop_eq_nil_of_le hlen, List.nil_append,
      List.drop_replicate]
    congr 1
    omega

theorem decimal_cons (c : Nat) (cs : List Nat) :
    decimal (c :: cs) = (c - 48) * 10 ^ cs.length + decimal cs := by
  unfold decimal
  rw [List.map_cons, List.reverse_cons, Nat.ofDigits_append]
  simp [Nat.ofDigits_singleton]
  ring

theorem atoiDigits_decimal :
    ∀ (ds : List Nat) (acc : Int), (∀ x ∈ ds, isdigit x = true) →
      atoiDigits ds acc = acc * 10 ^ ds.length + (decimal ds : Int) := by
  intro ds
  induction ds with
  | nil => intro acc _; simp [atoiDigits, decimal]
  | cons c cs ih =>
    intro acc h
    have hc : isdigit c = true := h c (by simp)
    have hc2 : 48 ≤ c := by
      simp [isdigit] at hc; omega
    rw [atoiDigits, if_pos hc, ih _ (fun x hx => h x (by simp [hx])), decimal_cons]
    push_cast [Nat.cast_sub hc2]
    simp only [List.length_cons]
    ring

theorem atoi_decimal (ds : List Nat) (h : ∀ x ∈ ds, isdigit x = true) :
    atoi ds = (decimal ds : Int) := by
  cases ds with
  | nil => simp [atoi, atoiDigits, decimal]
  | cons d ds =>
    have hd : isdigit d = true := h d (by simp)
    have hd2 : 48 ≤ d ∧ d ≤ 57 := by
      simpa [isdigit] using hd
    have hsp : isspace d = false := by
      simp [isspace]; omega
    have e := atoiDigits_decimal (d :: ds) 0 h
    rw [zero_mul, zero_add] at e
    unfold atoi
    rw [List.dropWhile_cons, hsp]
    simp only [Bool.false_eq_true, if_false]
    split
    · rename_i heq
      simp only [List.cons.injEq] at heq
      omega
    · rename_i heq
      simp only [List.cons.injEq] at heq
      omega
    · exact e

theorem isdigit_iff (x : Nat) : isdigit x = true ↔ 48 ≤ x ∧ x ≤ 57 := by
  simp [isdigit]

theorem isblank_iff (x : Nat) : isblank x = true ↔ x = 32 ∨ x = 9 := by
  simp [isblank]

theorem parseRange_single (d : Nat) (ds rest : List Nat) (hd : isdigit d = true)
    (hds : ∀ x ∈ ds, isdigit x = true) (hlen : ds.length + 1 ≤ 10)
    (hrest : isdigit (rest.headD 0) = false) (h45 : rest.headD 0 ≠ 45)
    (h44 : rest.headD 0 ≠ 44) :
    parseRange (d :: ds ++ rest) =
      some (dispatch (decimal (d :: ds)) 0 (rest.dropWhile isblank)) := by
  have hall : ∀ x ∈ d :: ds, isdigit x = true := by
    intro x hx
    rcases List.mem_cons.mp hx with h | h
    · rw [h]; exact hd
    · exact hds x h
  have hnz : ∀ x ∈ d :: ds, x ≠ 0 := by
    intro x hx
    have := (isdigit_iff x).mp (hall x hx)
    omega
  obtain ⟨w1, w2, _⟩ := digit_store (List.replicate 70 0) (d :: ds) rfl
    (by simpa using hlen) hnz
  have e80 : List.replicate 80 (0 : Nat) = List.replicate 10 0 ++ List.replicate 70 0 := rfl
  have hc := copyNumber_run true rest hrest ds d 0 hds (by simp [LINESIZE]; omega)
  unfold parseRange
  rw [hc, e80]
  dsimp only
  rw [w1]
  dsimp only
  rw [w2]
  dsimp only
  rw [if_neg (by rintro (h | h); exact h45 h; exact h44 h), atoi_decimal _ hall]

theorem parseRange_double (d sep e : Nat) (ds es rest : List Nat) (hd : isdigit d = true)
    (hds : ∀ x ∈ ds, isdigit x = true) (hlen : ds.length + 1 ≤ 10)
    (hsep : sep = 45 ∨ sep = 44) (he : e ≠ 0) (hes : ∀ x ∈ es, isdigit x = true)
    (hlen2 : es.length + 1 ≤ 10) (hrest : isdigit (rest.headD 0) = false) :
    parseRange (d :: ds ++ sep :: (e :: es ++ rest)) =
      some (dispatch (decimal (d :: ds)) (atoi (e :: es)) (rest.dropWhile isblank)) := by
  have hall : ∀ x ∈ d :: ds, isdigit x = true := by
    intro x hx
    rcases List.mem_cons.mp hx with h | h
    · rw [h]; exact hd
    · exact hds x h
  have hnz : ∀ x ∈ d :: ds, x ≠ 0 := by
    intro x hx
    have := (isdigit_iff x).mp (hall x hx)
    omega
  have hnz2 : ∀ x ∈ e :: es, x ≠ 0 := by
    intro x hx
    rcases List.mem_cons.mp hx with h | h
    · rw [h]; exact he
    · have := (isdigit_iff x).mp (hes x h)
      omega
  obtain ⟨w1, w2, w3⟩ := digit_store (List.replicate 70 0) (d :: ds) rfl
    (by simpa using hlen) hnz
  obtain ⟨v1, v2, _⟩ := digit_store (List.replicate 70 0) (e :: es) rfl
    (by simpa using hlen2) hnz2
  have e80 : List.replicate 80 (0 : Nat) = List.replicate 10 0 ++ List.replicate 70 0 := rfl
  have hsd : isdigit ((sep :: (e :: es ++ rest)).headD 0) = false := by
    rcases hsep with h | h <;> subst h <;> rfl
  have hc := copyNumber_run true (sep :: (e :: es ++ rest)) hsd ds d 0 hds
    (by simp [LINESIZE]; omega)
  have hc2 := copyNumber_run false rest hrest es e (0 + ds.length + 1 + 1) hes
    (by simp [LINESIZE]; omega)
  unfold parseRange
  rw [hc, e80]
  dsimp only
  rw [w1]
  dsimp only
  rw [w2]
  dsimp only
  rw [if_pos (by simpa using hsep), w3]
  simp only [List.drop_succ_cons, List.drop_zero]
  rw [hc2]
  dsimp only
  rw [v1]
  dsimp only
  rw [v2]
  dsimp only
  rw [atoi_decimal _ hall]

theorem dispatch_tail (f l : Int) (c : Nat) (t : List Nat) (ht : t = [] ∨ t = [10]) :
    ∀ (w : List Nat), (∀ x ∈ w, isblank x = true) →
      dispatch f l ((w ++ c :: t).dropWhile isblank) = dispatch f l [c] := by
  intro w
  induction w with
  | nil =>
    intro _
    rw [List.nil_append, List.dropWhile_cons]
    by_cases hc : isblank c = true
    · rw [if_pos hc]
      have hc2 := (isblank_iff c).mp hc
      rcases ht with h | h <;> subst h <;> rcases hc2 with h2 | h2 <;> subst h2 <;> rfl
    · rw [if_neg hc]
      rfl
  | cons x xs ih =>
    intro h
    rw [List.cons_append, List.dropWhile_cons, if_pos (h x (by simp))]
    exact ih (fun y hy => h y (by simp [hy]))

theorem dispatch_other (f l : Int) (c : Nat) (hp : c ≠ 112) (hd : c ≠ 100) (hi : c ≠ 105) :
    dispatch f l [c] = Call.badFormat := by
  simp [dispatch, hp, hd, hi]

theorem double_form (da db w t : List Nat) (sep c : Nat)
    (hda : da ≠ []) (hda9 : da.length ≤ 9) (hdad : ∀ x ∈ da, isdigit x = true)
    (hdb : db ≠ []) (hdb9 : db.length ≤ 9) (hdbd : ∀ x ∈ db, isdigit x = true)
    (hsep : sep = 45 ∨ sep = 44) (hw : ∀ x ∈ w, isblank x = true)
    (ht : t = if c = 10 then [] else [10]) :
    parseRange (da ++ sep :: (db ++ (w ++ c :: t))) =
      some (dispatch (decimal da) (decimal db) [c]) ∨
    (isdigit c = true ∧
      parseRange (da ++ sep :: (db ++ (w ++ c :: t))) = some Call.badFormat) := by
  obtain ⟨d, ds, rfl⟩ := List.exists_cons_of_ne_nil hda
  obtain ⟨e, es, rfl⟩ := List.exists_cons_of_ne_nil hdb
  have hd : isdigit d = true := hdad d (by simp)
  have hds : ∀ x ∈ ds, isdigit x = true := fun x hx => hdad x (by simp [hx])
  have he : isdigit e = true := hdbd e (by simp)
  have he0 : e ≠ 0 := by
    have := (isdigit_iff e).mp he
    omega
  have hes : ∀ x ∈ es, isdigit x = true := fun x hx => hdbd x (by simp [hx])
  have ht2 : t = [] ∨ t = [10] := by
    by_cases h : c = 10
    · left; rw [ht, if_pos h]
    · right; rw [ht, if_neg h]
  simp only [List.length_cons] at hda9 hdb9
  by_cases hcase : w = [] ∧ isdigit c = true
  · right
    obtain ⟨rfl, hc⟩ := hcase
    refine ⟨hc, ?_⟩
    have hc10 : c ≠ 10 := by
      have := (isdigit_iff c).mp hc
      omega
    rw [if_neg hc10] at ht
    subst ht
    have e1 : d :: ds ++ sep :: (e :: es ++ ([] ++ [c, 10])) =
        d :: ds ++ sep :: (e :: (es ++ [c]) ++ [10]) := by simp
    rw [e1, parseRange_double d sep e ds (es ++ [c]) [10] hd hds (by omega) hsep he0
      (by
        intro x hx
        rcases List.mem_append.mp hx with h | h
        · exact hes x h
        · rw [List.mem_singleton.mp h]; exact hc)
      (by simp; omega) rfl]
    rfl
  · left
    have hrest : isdigit ((w ++ c :: t).headD 0) = false := by
      cases w with
      | nil =>
        have : ¬ isdigit c = true := fun h => hcase ⟨rfl, h⟩
        simpa using this
      | cons x xs =>
        have := (isblank_iff x).mp (hw x (by simp))
        rcases this with h | h <;> subst h <;> rfl
    rw [parseRange_double d sep e ds es (w ++ c :: t) hd hds (by omega) hsep he0 hes
      (by omega) hrest, atoi_decimal _ hdbd, dispatch_tail _ _ c t ht2 w hw]

theorem single_form (da w t : List Nat) (c : Nat)
    (hda : da ≠ []) (hda9 : da.length ≤ 9) (hdad : ∀ x ∈ da, isdigit x = true)
    (hw : ∀ x ∈ w, isblank x = true) (ht : t = if c = 10 then [] else [10]) :
    parseRange (da ++ (w ++ c :: t)) = some (dispatch (decimal da) 0 [c]) ∨
    ((isdigit c = true ∨ c = 45 ∨ c = 44) ∧
      parseRange (da ++ (w ++ c :: t)) = some Call.badFormat) := by
  obtain ⟨d, ds, rfl⟩ := List.exists_cons_of_ne_nil hda
  have hd : isdigit d = true := hdad d (by simp)
  have hds : ∀ x ∈ ds, isdigit x = true := fun x hx => hdad x (by simp [hx])
  have ht2 : t = [] ∨ t = [10] := by
    by_cases h : c = 10
    · left; rw [ht, if_pos h]
    · right; rw [ht, if_neg h]
  simp only [List.length_cons] at hda9
  by_cases hcase : w = [] ∧ (isdigit c = true ∨ c = 45 ∨ c = 44)
  · right
    obtain ⟨rfl, hc⟩ := hcase
    refine ⟨hc, ?_⟩
    have hc10 : c ≠ 10 := by
      rcases hc with h | h | h
      · have := (isdigit_iff c).mp h
        omega
      · omega
      · omega
    rw [if_neg hc10] at ht
    subst ht
    rcases hc with hc | hc
    · have e1 : d :: ds ++ ([] ++ [c, 10]) = d :: (ds ++ [c]) ++ [10] := by simp
      rw [e1, parseRange_single d (ds ++ [c]) [10] hd
        (by
          intro x hx
          rcases List.mem_append.mp hx with h | h
          · exact hds x h
          · rw [List.mem_singleton.mp h]; exact hc)
        (by simp; omega) rfl (by decide) (by decide)]
      rfl
    · have e1 : d :: ds ++ ([] ++ [c, 10]) = d :: ds ++ c :: (10 :: [] ++ []) := by simp
      rw [e1, parseRange_double d c 10 ds [] [] hd hds (by omega) hc (by decide)
        (by simp) (by simp) rfl]
      rfl
  · left
    have hrest : isdigit ((w ++ c :: t).headD 0) = false ∧ (w ++ c :: t).headD 0 ≠ 45 ∧
        (w ++ c :: t).headD 0 ≠ 44 := by
      cases w with
      | nil =>
        have h1 : ¬ isdigit c = true := fun h => hcase ⟨rfl, Or.inl h⟩
        have h2 : c ≠ 45 := fun h => hcase ⟨rfl, Or.inr (Or.inl h)⟩
        have h3 : c ≠ 44 := fun h => hcase ⟨rfl, Or.inr (Or.inr h)⟩
        exact ⟨by simpa using h1, by simpa using h2, by simpa using h3⟩
      | cons x xs =>
        have := (isblank_iff x).mp (hw x (by simp))
        rcases this with h | h <;> subst h <;> exact ⟨rfl, by simp, by simp⟩
    rw [parseRange_single d ds (w ++ c :: t) hd hds (by omega) hrest.1 hrest.2.1 hrest.2.2,
      dispatch_tail _ _ c t ht2 w hw]

theorem single_range (a : Nat) :
    (if (a : Int) > 0 then (a : Int) else 0) = (if (a : Int) > (a : Int) then (a : Int) else a) := by
  split_ifs <;> omega

set_option maxRecDepth 1000000 in
/-- C12, counterexample.  The command line `1-2`, a run of 130 spaces, `d`: `fgets` takes
`LINESIZE - 1` bytes of it, which end inside the run of spaces, so that the range branch finds no
operation letter and rejects the command with the format message; `delete(1, 2)` is not
invoked, and buffer and position stay as they are. -/
theorem range_command_cut_by_fgets :
    (∀ x ∈ List.replicate 130 32, isblank x = true) ∧
    parseRange (commandLine ([49] ++ [45] ++ [50] ++ List.replicate 130 32 ++ [100, 10])) =
      some Call.badFormat ∧
    rangeCommand 9 (mkState [97, 10, 98, 10, 99, 10])
      (commandLine ([49] ++ [45] ++ [50] ++ List.replicate 130 32 ++ [100, 10])) [] [] =
      some (mkState [97, 10, 98, 10, 99, 10], formatMessage) := by
  have h : parseRange
      (commandLine ([49] ++ [45] ++ [50] ++ List.replicate 130 32 ++ [100, 10])) =
      some Call.badFormat := by decide
  refine ⟨?_, h, ?_⟩
  · intro x hx
    rw [List.eq_of_mem_replicate hx]
    rfl
  · simp only [rangeCommand, h]

/-- C12, amended.  Range-command grammar.  Let `da`, `db` be nonempty strings of at most 9
decimal digits, `sep` one of `-` and `,`, `w` a possibly empty run of spaces and tabs, `c` any
byte, and let the command line `da sep db w c` with its newline be at most `LINESIZE - 1` bytes.
Then the command line `da sep db w c` invokes `lineprint`, `delete` or `insert`, for `c` = `p`,
`d`, `i`, with `first` the number `da` and `last` the number `db`; the command line `da w c` has,
for `c` = `p`, `d`, `i`, the effect of that operation with `first = last` the number `da`; and
when `c` is none of `p`, `d`, `i`, both command lines are rejected with the format message, the
state unchanged. -/
theorem range_command_grammar (da db w more : List Nat) (sep c : Nat) (fuel : Nat) (s : State)
    (input : List (List Nat)) (over : List Nat)
    (hda : da ≠ []) (hda9 : da.length ≤ 9) (hdad : ∀ x ∈ da, isdigit x = true)
    (hdb : db ≠ []) (hdb9 : db.length ≤ 9) (hdbd : ∀ x ∈ db, isdigit x = true)
    (hsep : sep = 45 ∨ sep = 44) (hw : ∀ x ∈ w, isblank x = true)
    (hlen : da.length + 1 + db.length + w.length + 2 ≤ LINESIZE - 1) :
    (c = 112 → parseRange (commandLine (da ++ [sep] ++ db ++ w ++ [c, 10] ++ more)) =
      some (Call.lineprint (decimal da) (decimal db))) ∧
    (c = 100 → parseRange (commandLine (da ++ [sep] ++ db ++ w ++ [c, 10] ++ more)) =
      some (Call.delete (decimal da) (decimal db))) ∧
    (c = 105 → parseRange (commandLine (da ++ [sep] ++ db ++ w ++ [c, 10] ++ more)) =
      some (Call.insert (decimal da) (decimal db))) ∧
    (c = 112 → rangeCommand fuel s (commandLine (da ++ w ++ [c, 10] ++ more)) input over =
      (lineprint fuel s (decimal da) (decimal da) over).map (fun o => (s, o.1))) ∧
    (c = 100 → rangeCommand fuel s (commandLine (da ++ w ++ [c, 10] ++ more)) input over =
      (delete fuel s (decimal da) (decimal da)).map (fun t => (t, []))) ∧
    (c = 105 → rangeCommand fuel s (commandLine (da ++ w ++ [c, 10] ++ more)) input over =
      (insert fuel s (decimal da) (decimal da) input).map (fun t => (t, []))) ∧
    (c ≠ 112 → c ≠ 100 → c ≠ 105 →
      rangeCommand fuel s (commandLine (da ++ [sep] ++ db ++ w ++ [c, 10] ++ more)) input over =
        some (s, formatMessage) ∧
      rangeCommand fuel s (commandLine (da ++ w ++ [c, 10] ++ more)) input over =
        some (s, formatMessage)) := by
  have n1 : ∀ x ∈ da, x ≠ 10 := by
    intro x hx
    have := (isdigit_iff x).mp (hdad x hx)
    omega
  have n2 : ∀ x ∈ db, x ≠ 10 := by
    intro x hx
    have := (isdigit_iff x).mp (hdbd x hx)
    omega
  have n3 : ∀ x ∈ w, x ≠ 10 := by
    intro x hx
    have := (isblank_iff x).mp (hw x hx)
    omega
  have n4 : sep ≠ 10 := by omega
  have p2 : 10 ∉ da ++ sep :: (db ++ w) := by
    intro h
    rcases List.mem_append.mp h with h | h
    · exact n1 10 h rfl
    · rcases List.mem_cons.mp h with h | h
      · exact n4 h.symm
      · rcases List.mem_append.mp h with h | h
        · exact n2 10 h rfl
        · exact n3 10 h rfl
  have p1 : 10 ∉ da ++ w := by
    intro h
    rcases List.mem_append.mp h with h | h
    · exact n1 10 h rfl
    · exact n3 10 h rfl
  have l2 : commandLine (da ++ [sep] ++ db ++ w ++ [c, 10] ++ more) =
      da ++ sep :: (db ++ (w ++ c :: (if c = 10 then [] else [10]))) := by
    have e : da ++ [sep] ++ db ++ w ++ [c, 10] ++ more =
        (da ++ sep :: (db ++ w)) ++ c :: 10 :: more := by simp
    rw [e, commandLine_of_short _ _ _ p2 (by simp; omega)]
    simp
  have l1 : commandLine (da ++ w ++ [c, 10] ++ more) =
      da ++ (w ++ c :: (if c = 10 then [] else [10])) := by
    have e : da ++ w ++ [c, 10] ++ more = (da ++ w) ++ c :: 10 :: more := by simp
    rw [e, commandLine_of_short _ _ _ p1 (by simp; omega)]
    simp
  have f2 := double_form da db w _ sep c hda hda9 hdad hdb hdb9 hdbd hsep hw rfl
  have f1 := single_form da w _ c hda hda9 hdad hw rfl
  rw [← l2] at f2
  rw [← l1] at f1
  refine ⟨?_, ?_, ?_, ?_, ?_, ?_, ?_⟩
  · intro hc
    subst hc
    rcases f2 with h | ⟨h, _⟩
    · rw [h]; rfl
    · exact absurd h (by decide)
  · intro hc
    subst hc
    rcases f2 with h | ⟨h, _⟩
    · rw [h]; rfl
    · exact absurd h (by decide)
  · intro hc
    subst hc
    rcases f2 with h | ⟨h, _⟩
    · rw [h]; rfl
    · exact absurd h (by decide)
  · intro hc
    subst hc
    rcases f1 with h | ⟨h, _⟩
    · have h2 : parseRange (commandLine (da ++ w ++ [112, 10] ++ more)) =
          some (Call.lineprint (decimal da) 0) := by rw [h]; rfl
      simp only [rangeCommand, h2, lineprint, single_range]
    · exact absurd h (by decide)
  · intro hc
    subst hc
    rcases f1 with h | ⟨h, _⟩
    · have h2 : parseRange (commandLine (da ++ w ++ [100, 10] ++ more)) =
          some (Call.delete (decimal da) 0) := by rw [h]; rfl
      simp only [rangeCommand, h2, delete, single_range]
    · exact absurd h (by decide)
  · intro hc
    subst hc
    rcases f1 with h | ⟨h, _⟩
    · have h2 : parseRange (commandLine (da ++ w ++ [105, 10] ++ more)) =
          some (Call.insert (decimal da) 0) := by rw [h]; rfl
      simp only [rangeCommand, h2, insert, single_range]
    · exact absurd h (by decide)
  · intro hp hd hi
    constructor
    · rcases f2 with h | ⟨_, h⟩
      · rw [dispatch_other _ _ c hp hd hi] at h
        simp only [rangeCommand, h]
      · simp only [rangeCommand, h]
    · rcases f1 with h | ⟨_, h⟩
      · rw [dispatch_other _ _ c hp hd hi] at h
        simp only [rangeCommand, h]
      · simp only [rangeCommand, h]

theorem range_command_grammar_witness :
    ((100 : Nat) = 112 →
      parseRange (commandLine ([49, 48] ++ [45] ++ [50, 53] ++ [32, 9] ++ [100, 10] ++ [113, 10])) =
      some (Call.lineprint (decimal [49, 48]) (decimal [50, 53]))) ∧
    ((100 : Nat) = 100 →
      parseRange (commandLine ([49, 48] ++ [45] ++ [50, 53] ++ [32, 9] ++ [100, 10] ++ [113, 10])) =
      some (Call.delete (decimal [49, 48]) (decimal [50, 53]))) ∧
    ((100 : Nat) = 105 →
      parseRange (commandLine ([49, 48] ++ [45] ++ [50, 53] ++ [32, 9] ++ [100, 10] ++ [113, 10])) =
      some (Call.insert (decimal [49, 48]) (decimal [50, 53]))) ∧
    ((100 : Nat) = 112 →
      rangeCommand 9 (mkState [97, 10]) (commandLine ([49, 48] ++ [32, 9] ++ [100, 10] ++ [113, 10]))
        [] [] =
      (lineprint 9 (mkState [97, 10]) (decimal [49, 48]) (decimal [49, 48]) []).map
        (fun o => (mkState [97, 10], o.1))) ∧
    ((100 : Nat) = 100 →
      rangeCommand 9 (mkState [97, 10]) (commandLine ([49, 48] ++ [32, 9] ++ [100, 10] ++ [113, 10]))
        [] [] =
      (delete 9 (mkState [97, 10]) (decimal [49, 48]) (decimal [49, 48])).map
        (fun t => (t, []))) ∧
    ((100 : Nat) = 105 →
      rangeCommand 9 (mkState [97, 10]) (commandLine ([49, 48] ++ [32, 9] ++ [100, 10] ++ [113, 10]))
        [] [] =
      (insert 9 (mkState [97, 10]) (decimal [49, 48]) (decimal [49, 48]) []).map
        (fun t => (t, []))) ∧
    ((100 : Nat) ≠ 112 → (100 : Nat) ≠ 100 → (100 : Nat) ≠ 105 →
      rangeCommand 9 (mkState [97, 10])
        (commandLine ([49, 48] ++ [45] ++ [50, 53] ++ [32, 9] ++ [100, 10] ++ [113, 10])) [] [] =
        some (mkState [97, 10], formatMessage) ∧
      rangeCommand 9 (mkState [97, 10]) (commandLine ([49, 48] ++ [32, 9] ++ [100, 10] ++ [113, 10]))
        [] [] =
        some (mkState [97, 10], formatMessage)) :=
  range_command_grammar [49, 48] [50, 53] [32, 9] [113, 10] 45 100 9 (mkState [97, 10]) [] []
    (by decide) (by decide) (by decide) (by decide) (by decide) (by decide) (by decide)
    (by decide) (by decide)

end Edlin
